import Mathlib

/-!
# abacus-c: a stored-program accumulator machine

Shallow embedding of `src/abacus.c`.

* The three globals `memory`, `accumulator`, `program_counter` become the
  fields of `Machine`, together with the two streams the program talks to
  (`stdin` as the list of tokens still unread, `stdout` as the list of
  things printed so far).
* `exit(...)` becomes the `Outcome.exited` result, which records the exit
  kind and the machine at the moment of the call.
* C `int` values are mathematical integers; the results of `+`, `-` and `++`
  are passed through `wrap32` (two's complement wraparound on 32 bits).
  `/` and `%` are the truncating `Int.tdiv` and `Int.tmod`.
* `memory` is an array of exactly `MEMORY_SIZE` cells: it is indexed by
  `Fin MEMORY_SIZE`, and every access carries the proof, obtained from the
  guard the C code runs first, that the index is inside the array.
-/

namespace Abacus

/-- The capacity of the memory array, `MEMORY_SIZE` in the source: 256 cells. -/
abbrev MEMORY_SIZE : Nat := 256

/-- Two's complement wraparound of a mathematical integer to a 32-bit `int`. -/
def wrap32 (x : Int) : Int := (x + 2147483648) % 4294967296 - 2147483648

/-- The range of a 32-bit `int`. -/
def inInt32 (x : Int) : Prop := -2147483648 ≤ x ∧ x ≤ 2147483647

instance (x : Int) : Decidable (inInt32 x) := by unfold inInt32; infer_instance

/-- One whitespace-separated token of the input stream, as `scanf("%d")` sees
it: an integer, or something `%d` does not match.  The end of the stream is
the empty list of tokens. -/
inductive Token where
  | int (v : Int)
  | other
  deriving DecidableEq, Repr

/-- What the program prints on its standard output. -/
inductive OutEvent where
  | banner
  | enterProgram
  | enterNumber
  | output (v : Int)
  deriving DecidableEq, Repr

/-- The diagnostics printed on `stderr` before `exit(EXIT_FAILURE)`. -/
inductive Fatal where
  | invalidInput
  | memoryOverflow
  | invalidOperand (operand : Int)
  | pcOutOfBounds (pc : Int)
  | invalidInstruction (instruction : Int)
  deriving DecidableEq, Repr

/-- The two ways the process ends: `exit(EXIT_SUCCESS)` and
`exit(EXIT_FAILURE)` after a diagnostic. -/
inductive Exit where
  | success
  | failure (e : Fatal)
  deriving DecidableEq, Repr

/-- The process exit status: `EXIT_SUCCESS` is 0, `EXIT_FAILURE` is 1. -/
def Exit.status : Exit → Nat
  | Exit.success => 0
  | Exit.failure _ => 1

/-- The global variables of the program and its two streams. -/
structure Machine where
  memory : Fin MEMORY_SIZE → Int
  accumulator : Int
  program_counter : Int
  stdin : List Token
  stdout : List OutEvent

/-- The state at process start: the initialisers of the three globals, the
given input stream, nothing printed yet. -/
def Machine.initial (input : List Token) : Machine where
  memory := fun _ => 0
  accumulator := 0
  program_counter := 0
  stdin := input
  stdout := []

/-- Result of running a piece of the program: it returned to its caller with
the machine in state `s`, or it called `exit` with the machine in state `s`. -/
inductive Outcome where
  | running (s : Machine)
  | exited (e : Exit) (s : Machine)

/-- The guard `index < 0 || index >= MEMORY_SIZE` used for operands and for
the program counter. -/
def out_of_range (index : Int) : Prop := index < 0 ∨ index ≥ MEMORY_SIZE

instance (index : Int) : Decidable (out_of_range index) := by
  unfold out_of_range; infer_instance

/-- The array cell an index names once the guard has let it through. -/
def cell (index : Int) (h : ¬ out_of_range index) : Fin MEMORY_SIZE :=
  ⟨index.toNat, by
    unfold out_of_range at h
    have h0 : 0 ≤ index := by omega
    have h1 : index < 256 := by simp only [MEMORY_SIZE] at h; omega
    omega⟩

/-- The decoded opcode, `int opcode = instruction / 100;`. -/
def opcode_of (instruction : Int) : Int := Int.tdiv instruction 100

/-- The decoded operand, `int operand = instruction % 100;`. -/
def operand_of (instruction : Int) : Int := Int.tmod instruction 100

/-- The loop of `load_program`, entered with loop variable `i`:
`for (; i < MEMORY_SIZE; i++) { scanf; sentinel test; overflow test; store }`. -/
def load_loop (i : Nat) (s : Machine) : Outcome :=
  if h : i < MEMORY_SIZE then
    match s.stdin with
    | Token.int instruction :: rest =>
      if instruction = -1 then
        Outcome.running { s with stdin := rest }
      else if i ≥ MEMORY_SIZE then
        Outcome.exited (Exit.failure Fatal.memoryOverflow) { s with stdin := rest }
      else
        load_loop (i + 1)
          { s with stdin := rest, memory := Function.update s.memory ⟨i, h⟩ instruction }
    | _ => Outcome.exited (Exit.failure Fatal.invalidInput) s
  else
    Outcome.running s
termination_by MEMORY_SIZE - i

/-- The function `void load_program()`: two lines of banner, then the loop from `i = 0`. -/
def load_program (s : Machine) : Outcome :=
  load_loop 0 { s with stdout := s.stdout ++ [OutEvent.banner, OutEvent.enterProgram] }

/-- The function `void execute_instruction(int instruction)`.  `break` and `return` both
hand control back to the caller, since nothing follows the `switch`. -/
def execute_instruction (s : Machine) (instruction : Int) : Outcome :=
  let opcode := opcode_of instruction
  let operand := operand_of instruction
  if h : out_of_range operand then
    Outcome.exited (Exit.failure (Fatal.invalidOperand operand)) s
  else
    let a := cell operand h
    if opcode = 1 then
      Outcome.running { s with accumulator := wrap32 (s.accumulator + s.memory a) }
    else if opcode = 2 then
      Outcome.running { s with accumulator := wrap32 (s.accumulator - s.memory a) }
    else if opcode = 3 then
      Outcome.running { s with memory := Function.update s.memory a s.accumulator }
    else if opcode = 4 then
      Outcome.running { s with accumulator := s.memory a }
    else if opcode = 5 then
      Outcome.running { s with program_counter := operand }
    else if opcode = 6 then
      if s.accumulator = 0 then Outcome.running { s with program_counter := operand }
      else Outcome.running s
    else if opcode = 7 then
      if s.accumulator > 0 then Outcome.running { s with program_counter := operand }
      else Outcome.running s
    else if opcode = 8 then
      let t := { s with stdout := s.stdout ++ [OutEvent.enterNumber] }
      match t.stdin with
      | Token.int v :: rest =>
        Outcome.running { t with stdin := rest, memory := Function.update t.memory a v }
      | _ => Outcome.exited (Exit.failure Fatal.invalidInput) t
    else if opcode = 9 then
      Outcome.running { s with stdout := s.stdout ++ [OutEvent.output (s.memory a)] }
    else if opcode = 0 then
      Outcome.exited Exit.success s
    else
      Outcome.exited (Exit.failure (Fatal.invalidInstruction instruction)) s

/-- One iteration of the `while (1)` loop of `run`: the program counter
guard, the fetch, `execute_instruction`, and `program_counter++`. -/
def cycle (s : Machine) : Outcome :=
  if h : out_of_range s.program_counter then
    Outcome.exited (Exit.failure (Fatal.pcOutOfBounds s.program_counter)) s
  else
    let instruction := s.memory (cell s.program_counter h)
    match execute_instruction s instruction with
    | Outcome.running t =>
      Outcome.running { t with program_counter := wrap32 (t.program_counter + 1) }
    | Outcome.exited e t => Outcome.exited e t

/-- The function `void run()`, its `while (1)` loop unrolled for at most `n` iterations:
the result is `running` when the loop is still going after `n` cycles. -/
def run : Nat → Machine → Outcome
  | 0, s => Outcome.running s
  | n + 1, s =>
    match cycle s with
    | Outcome.running t => run n t
    | Outcome.exited e t => Outcome.exited e t

/-- The function `int main()`: `load_program(); run();` with at most `n` cycles of `run`. -/
def main (n : Nat) (input : List Token) : Outcome :=
  match load_program (Machine.initial input) with
  | Outcome.running s => run n s
  | Outcome.exited e s => Outcome.exited e s

/-- The outcome is the `INVALID OPERAND` failure. -/
def Outcome.isInvalidOperand : Outcome → Prop
  | Outcome.exited (Exit.failure (Fatal.invalidOperand _)) _ => True
  | _ => False

/-- The machine with `v` in every memory cell, the given accumulator, the
program counter at 0, the given tokens to read and nothing printed. -/
def Machine.filled (v acc : Int) (input : List Token) : Machine where
  memory := fun _ => v
  accumulator := acc
  program_counter := 0
  stdin := input
  stdout := []

/-- The machine an outcome carries: the one handed back to the caller, or the
one the process ended with. -/
def Outcome.machine : Outcome → Machine
  | Outcome.running s => s
  | Outcome.exited _ s => s

/-- The cases of `execute_instruction` that assign the program counter:
`case 5` always, `case 6` when `accumulator == 0`, `case 7` when
`accumulator > 0`. -/
def taken_jump (s : Machine) (instruction : Int) : Prop :=
  opcode_of instruction = 5 ∨ (opcode_of instruction = 6 ∧ s.accumulator = 0) ∨
    (opcode_of instruction = 7 ∧ s.accumulator > 0)

instance (s : Machine) (instruction : Int) : Decidable (taken_jump s instruction) := by
  unfold taken_jump; infer_instance

/-- The values printed by the `OUTPUT` case, in order, among all that was
printed. -/
def results : List OutEvent → List Int
  | [] => []
  | OutEvent.output v :: rest => v :: results rest
  | _ :: rest => results rest

/-- Two machines that differ at most in the contents of the cells from 100
on: same accumulator, program counter and streams, same cells 0..99. -/
def same_below_100 (s t : Machine) : Prop :=
  s.accumulator = t.accumulator ∧ s.program_counter = t.program_counter ∧
    s.stdin = t.stdin ∧ s.stdout = t.stdout ∧
    ∀ j : Fin MEMORY_SIZE, j.val < 100 → s.memory j = t.memory j

/-- Two outcomes of the same kind (both returned, or both ended the process
with the same exit) whose machines differ at most in the cells from 100 on. -/
def Outcome.same_below_100 : Outcome → Outcome → Prop
  | Outcome.running s, Outcome.running t => Abacus.same_below_100 s t
  | Outcome.exited e s, Outcome.exited f t => e = f ∧ Abacus.same_below_100 s t
  | _, _ => False

/-! ## Arithmetic of the model -/

theorem wrap32_of_inInt32 (x : Int) (h : inInt32 x) : wrap32 x = x := by
  unfold inInt32 at h
  unfold wrap32
  omega

/-- Truncating division by 100, reduced to the flooring operations on the
absolute value. -/
theorem decode_cases (i : Int) :
    (0 ≤ i ∧ opcode_of i = i / 100 ∧ operand_of i = i % 100) ∨
    (i < 0 ∧ opcode_of i = -((-i) / 100) ∧ operand_of i = -((-i) % 100)) := by
  unfold opcode_of operand_of
  rcases Int.lt_or_le i 0 with h | h
  · right
    have hn : 0 ≤ -i := by omega
    have h1 : (-i).tdiv 100 = (-i) / 100 := Int.tdiv_eq_ediv hn (by decide)
    have h2 : i.tdiv 100 = -((-i) / 100) := by
      rw [← h1, Int.neg_tdiv, Int.neg_neg]
    refine ⟨h, h2, ?_⟩
    rw [Int.tmod_def, h2]
    omega
  · left
    exact ⟨h, Int.tdiv_eq_ediv h (by decide), Int.tmod_eq_emod h (by decide)⟩

/-- Decoding the instruction `100 * k + a` with `0 ≤ k` and `a` in 0..99. -/
theorem decode_instruction (i k a : Int) (hi : i = 100 * k + a) (hk : 0 ≤ k)
    (h0 : 0 ≤ a) (h1 : a < 100) : opcode_of i = k ∧ operand_of i = a := by
  subst hi
  rcases decode_cases (100 * k + a) with ⟨_, h2, h3⟩ | ⟨hneg, _, _⟩
  · constructor
    · rw [h2]; omega
    · rw [h3]; omega
  · omega

theorem operand_bounds (i : Int) : -99 ≤ operand_of i ∧ operand_of i ≤ 99 := by
  rcases decode_cases i with ⟨_, _, h3⟩ | ⟨_, _, h3⟩ <;> rw [h3] <;> omega

/-- A positive opcode comes with an operand in 0..99. -/
theorem operand_of_pos_opcode (i : Int) (h : 0 < opcode_of i) :
    0 ≤ operand_of i ∧ operand_of i < 100 := by
  rcases decode_cases i with ⟨_, _, h3⟩ | ⟨_, h2, _⟩
  · rw [h3]; omega
  · rw [h2] at h; omega

/-! ## Memory indexing -/

theorem not_out_of_range_fin (p : Fin MEMORY_SIZE) : ¬ out_of_range (p.val : Int) := by
  have := p.isLt
  unfold out_of_range
  simp only [MEMORY_SIZE] at *
  omega

theorem cell_of_eq (x : Int) (p : Fin MEMORY_SIZE) (hx : x = (p.val : Int))
    (h : ¬ out_of_range x) : cell x h = p := by
  subst hx
  apply Fin.ext
  simp [cell]

/-! ## One cycle, one instruction -/

/-- With the program counter on cell `p`, a cycle fetches `memory[p]`,
executes it and then increments the program counter. -/
theorem cycle_fetch (s : Machine) (p : Fin MEMORY_SIZE)
    (hp : s.program_counter = (p.val : Int)) :
    cycle s =
      match execute_instruction s (s.memory p) with
      | Outcome.running t =>
        Outcome.running { t with program_counter := wrap32 (t.program_counter + 1) }
      | Outcome.exited e t => Outcome.exited e t := by
  have h : ¬ out_of_range s.program_counter := by
    rw [hp]; exact not_out_of_range_fin p
  unfold cycle
  rw [dif_neg h]
  simp only [cell_of_eq s.program_counter p hp h]

/-- With an operand that names cell `a`, the operand guard lets the
instruction through and the dispatch works on `memory[a]`. -/
theorem execute_dispatch (s : Machine) (instruction : Int) (a : Fin MEMORY_SIZE)
    (ha : operand_of instruction = (a.val : Int)) :
    execute_instruction s instruction =
      if opcode_of instruction = 1 then
        Outcome.running { s with accumulator := wrap32 (s.accumulator + s.memory a) }
      else if opcode_of instruction = 2 then
        Outcome.running { s with accumulator := wrap32 (s.accumulator - s.memory a) }
      else if opcode_of instruction = 3 then
        Outcome.running { s with memory := Function.update s.memory a s.accumulator }
      else if opcode_of instruction = 4 then
        Outcome.running { s with accumulator := s.memory a }
      else if opcode_of instruction = 5 then
        Outcome.running { s with program_counter := (a.val : Int) }
      else if opcode_of instruction = 6 then
        if s.accumulator = 0 then Outcome.running { s with program_counter := (a.val : Int) }
        else Outcome.running s
      else if opcode_of instruction = 7 then
        if s.accumulator > 0 then Outcome.running { s with program_counter := (a.val : Int) }
        else Outcome.running s
      else if opcode_of instruction = 8 then
        match s.stdin with
        | Token.int v :: rest =>
          Outcome.running
            { s with stdout := s.stdout ++ [OutEvent.enterNumber], stdin := rest,
                     memory := Function.update s.memory a v }
        | _ =>
          Outcome.exited (Exit.failure Fatal.invalidInput)
            { s with stdout := s.stdout ++ [OutEvent.enterNumber] }
      else if opcode_of instruction = 9 then
        Outcome.running { s with stdout := s.stdout ++ [OutEvent.output (s.memory a)] }
      else if opcode_of instruction = 0 then
        Outcome.exited Exit.success s
      else
        Outcome.exited (Exit.failure (Fatal.invalidInstruction instruction)) s := by
  have h : ¬ out_of_range (operand_of instruction) := by
    rw [ha]; exact not_out_of_range_fin a
  unfold execute_instruction
  simp only [dif_neg h, cell_of_eq (operand_of instruction) a ha h]
  simp only [ha]

/-- The cell an in-range operand names. -/
theorem operand_cell (instruction : Int) (h0 : 0 ≤ operand_of instruction) :
    ∃ a : Fin MEMORY_SIZE, operand_of instruction = (a.val : Int) ∧ a.val < 100 := by
  have hb := operand_bounds instruction
  refine ⟨⟨(operand_of instruction).toNat, by simp only [MEMORY_SIZE]; omega⟩, ?_, ?_⟩
  · simp only; omega
  · simp only; omega

theorem wrap32_succ_fin (p : Fin MEMORY_SIZE) : wrap32 ((p.val : Int) + 1) = (p.val : Int) + 1 := by
  have := p.isLt
  apply wrap32_of_inInt32
  unfold inInt32
  simp only [MEMORY_SIZE] at *
  omega

/-- A taken jump to operand `k`: the handler stores `k` in the program
counter and the loop of `run` then increments it. -/
theorem cycle_taken_jump (s : Machine) (p : Fin MEMORY_SIZE) (k : Nat)
    (hp : s.program_counter = (p.val : Int)) (hk : k < 100)
    (hj : s.memory p = 500 + (k : Int) ∨
          (s.memory p = 600 + (k : Int) ∧ s.accumulator = 0) ∨
          (s.memory p = 700 + (k : Int) ∧ s.accumulator > 0)) :
    cycle s = Outcome.running { s with program_counter := (k : Int) + 1 } := by
  have hw : wrap32 ((k : Int) + 1) = (k : Int) + 1 :=
    wrap32_succ_fin ⟨k, by simp only [MEMORY_SIZE]; omega⟩
  rw [cycle_fetch s p hp]
  rcases hj with h | ⟨h, hacc⟩ | ⟨h, hacc⟩
  · have hd := decode_instruction (500 + (k : Int)) 5 k (by omega) (by decide) (by omega) (by omega)
    rw [h, execute_dispatch s _ ⟨k, by simp only [MEMORY_SIZE]; omega⟩ hd.2]
    simp [hd.1, hw]
  · have hd := decode_instruction (600 + (k : Int)) 6 k (by omega) (by decide) (by omega) (by omega)
    rw [h, execute_dispatch s _ ⟨k, by simp only [MEMORY_SIZE]; omega⟩ hd.2]
    simp [hd.1, hw, hacc]
  · have hd := decode_instruction (700 + (k : Int)) 7 k (by omega) (by decide) (by omega) (by omega)
    rw [h, execute_dispatch s _ ⟨k, by simp only [MEMORY_SIZE]; omega⟩ hd.2]
    simp [hd.1, hw, hacc]

/-! ## The claims -/

/-- C1: with the program counter `p` inside the memory and the fetched
instruction `Memory[p]` of opcode 1, 2, 3, 4, 8 or 9 (for opcode 8, with an
integer as the next input token), one cycle of `run` returns to the loop with
the program counter equal to `p + 1`. -/
theorem cycle_advances_program_counter (s : Machine) (p : Fin MEMORY_SIZE)
    (hp : s.program_counter = (p.val : Int))
    (hop : opcode_of (s.memory p) = 1 ∨ opcode_of (s.memory p) = 2 ∨
           opcode_of (s.memory p) = 3 ∨ opcode_of (s.memory p) = 4 ∨
           opcode_of (s.memory p) = 8 ∨ opcode_of (s.memory p) = 9)
    (hin : opcode_of (s.memory p) = 8 → ∃ v rest, s.stdin = Token.int v :: rest) :
    ∃ t, cycle s = Outcome.running t ∧ t.program_counter = (p.val : Int) + 1 := by
  have hpos : 0 < opcode_of (s.memory p) := by omega
  obtain ⟨a, ha, _⟩ := operand_cell (s.memory p) (operand_of_pos_opcode _ hpos).1
  have hw := wrap32_succ_fin p
  rw [cycle_fetch s p hp, execute_dispatch s _ a ha]
  rcases hop with h | h | h | h | h | h
  · exact ⟨_, by simp only [h]; rfl, by simp only [hp, hw]⟩
  · exact ⟨_, by simp [h]; rfl, by simp only [hp, hw]⟩
  · exact ⟨_, by simp [h]; rfl, by simp only [hp, hw]⟩
  · exact ⟨_, by simp [h]; rfl, by simp only [hp, hw]⟩
  · obtain ⟨v, rest, hst⟩ := hin h
    exact ⟨_, by simp [h, hst]; rfl, by simp only [hp, hw]⟩
  · exact ⟨_, by simp [h]; rfl, by simp only [hp, hw]⟩

/-- Witness for C1: `INPUT 5` at cell 0 with the token 42 waiting. -/
theorem cycle_advances_program_counter_witness :
    opcode_of ((Machine.filled 805 7 [Token.int 42]).memory 0) = 8 ∧
    ∃ t, cycle (Machine.filled 805 7 [Token.int 42]) = Outcome.running t ∧
      t.program_counter = ((0 : Fin MEMORY_SIZE).val : Int) + 1 :=
  ⟨by decide,
   cycle_advances_program_counter (Machine.filled 805 7 [Token.int 42]) 0 rfl
     (by decide) (fun _ => ⟨42, [], rfl⟩)⟩

/-- C2 (evaluation of the code): a taken jump to operand 7 from cell 0 leaves
the program counter at 8, for `JUMP 7` (507), for `JUMP-IF-ZERO 7` (607) with
accumulator 0 and for `JUMP-IF-POSITIVE 7` (707) with accumulator 3: the
increment of `run` is applied after the handler has stored 7. -/
theorem taken_jump_lands_one_past_operand :
    cycle (Machine.filled 507 3 []) =
      Outcome.running { Machine.filled 507 3 [] with program_counter := 8 } ∧
    cycle (Machine.filled 607 0 []) =
      Outcome.running { Machine.filled 607 0 [] with program_counter := 8 } ∧
    cycle (Machine.filled 707 3 []) =
      Outcome.running { Machine.filled 707 3 [] with program_counter := 8 } :=
  ⟨rfl, rfl, rfl⟩

/-- C3: with the program counter `p` inside the memory, a cycle on a
conditional jump that is not taken (600+k with a non-zero accumulator, 700+k
with an accumulator that is not positive) returns to the loop with the
program counter at `p + 1`, the accumulator and every memory cell as before. -/
theorem cycle_jump_not_taken (s : Machine) (p : Fin MEMORY_SIZE) (k : Nat)
    (hp : s.program_counter = (p.val : Int)) (hk : k < 100)
    (hj : (s.memory p = 600 + (k : Int) ∧ s.accumulator ≠ 0) ∨
          (s.memory p = 700 + (k : Int) ∧ s.accumulator ≤ 0)) :
    ∃ t, cycle s = Outcome.running t ∧ t.program_counter = (p.val : Int) + 1 ∧
      t.accumulator = s.accumulator ∧ ∀ j, t.memory j = s.memory j := by
  have hw := wrap32_succ_fin p
  rw [cycle_fetch s p hp]
  rcases hj with ⟨h, hacc⟩ | ⟨h, hacc⟩
  · have hd := decode_instruction (600 + (k : Int)) 6 k (by omega) (by decide) (by omega) (by omega)
    rw [h, execute_dispatch s _ ⟨k, by simp only [MEMORY_SIZE]; omega⟩ hd.2]
    refine ⟨{ s with program_counter := wrap32 (s.program_counter + 1) }, ?_, ?_, rfl, fun _ => rfl⟩
    · simp [hd.1, hacc]
    · simp only [hp, hw]
  · have hd := decode_instruction (700 + (k : Int)) 7 k (by omega) (by decide) (by omega) (by omega)
    have hnot : ¬ 0 < s.accumulator := by omega
    rw [h, execute_dispatch s _ ⟨k, by simp only [MEMORY_SIZE]; omega⟩ hd.2]
    refine ⟨{ s with program_counter := wrap32 (s.program_counter + 1) }, ?_, ?_, rfl, fun _ => rfl⟩
    · simp [hd.1, hnot]
    · simp only [hp, hw]

/-- Witness for C3: `JUMP-IF-POSITIVE 7` at cell 0 with accumulator -2. -/
theorem cycle_jump_not_taken_witness :
    ∃ t, cycle (Machine.filled 707 (-2) []) = Outcome.running t ∧
      t.program_counter = ((0 : Fin MEMORY_SIZE).val : Int) + 1 ∧
      t.accumulator = (Machine.filled 707 (-2) []).accumulator ∧
      ∀ j, t.memory j = (Machine.filled 707 (-2) []).memory j :=
  cycle_jump_not_taken (Machine.filled 707 (-2) []) 0 7 rfl (by decide)
    (Or.inr ⟨rfl, by decide⟩)

/-- C4: for an operand `a` in 0..99, `execute_instruction` has the data
effect of the opcode table and no other effect.  ADD (100+a), SUB (200+a)
and LOAD (400+a) change the accumulator only, to `Accumulator + Memory[a]`,
`Accumulator - Memory[a]` (both wrapped to 32 bits, hence exact when the
exact result is a 32-bit value) and `Memory[a]`; STORE (300+a) changes the
cell `Memory[a]` only, to the accumulator. -/
theorem execute_data_effect (s : Machine) (a : Fin MEMORY_SIZE) (ha : a.val < 100) :
    (execute_instruction s (100 + (a.val : Int)) =
        Outcome.running { s with accumulator := wrap32 (s.accumulator + s.memory a) } ∧
      (inInt32 (s.accumulator + s.memory a) →
        execute_instruction s (100 + (a.val : Int)) =
          Outcome.running { s with accumulator := s.accumulator + s.memory a })) ∧
    (execute_instruction s (200 + (a.val : Int)) =
        Outcome.running { s with accumulator := wrap32 (s.accumulator - s.memory a) } ∧
      (inInt32 (s.accumulator - s.memory a) →
        execute_instruction s (200 + (a.val : Int)) =
          Outcome.running { s with accumulator := s.accumulator - s.memory a })) ∧
    execute_instruction s (400 + (a.val : Int)) =
        Outcome.running { s with accumulator := s.memory a } ∧
    (∃ t, execute_instruction s (300 + (a.val : Int)) = Outcome.running t ∧
      t.memory a = s.accumulator ∧ (∀ j, j ≠ a → t.memory j = s.memory j) ∧
      t.accumulator = s.accumulator ∧ t.program_counter = s.program_counter ∧
      t.stdin = s.stdin ∧ t.stdout = s.stdout) := by
  have h1 := decode_instruction (100 + (a.val : Int)) 1 a.val (by omega) (by decide)
    (by omega) (by omega)
  have h2 := decode_instruction (200 + (a.val : Int)) 2 a.val (by omega) (by decide)
    (by omega) (by omega)
  have h3 := decode_instruction (300 + (a.val : Int)) 3 a.val (by omega) (by decide)
    (by omega) (by omega)
  have h4 := decode_instruction (400 + (a.val : Int)) 4 a.val (by omega) (by decide)
    (by omega) (by omega)
  have e1 : execute_instruction s (100 + (a.val : Int)) =
      Outcome.running { s with accumulator := wrap32 (s.accumulator + s.memory a) } := by
    rw [execute_dispatch s _ a h1.2]; simp [h1.1]
  have e2 : execute_instruction s (200 + (a.val : Int)) =
      Outcome.running { s with accumulator := wrap32 (s.accumulator - s.memory a) } := by
    rw [execute_dispatch s _ a h2.2]; simp [h2.1]
  refine ⟨⟨e1, ?_⟩, ⟨e2, ?_⟩, ?_, ?_⟩
  · intro hr
    rw [e1, wrap32_of_inInt32 _ hr]
  · intro hr
    rw [e2, wrap32_of_inInt32 _ hr]
  · rw [execute_dispatch s _ a h4.2]; simp [h4.1]
  · refine ⟨{ s with memory := Function.update s.memory a s.accumulator }, ?_, ?_, ?_,
      rfl, rfl, rfl, rfl⟩
    · rw [execute_dispatch s _ a h3.2]; simp [h3.1]
    · simp
    · intro j hj
      simp [Function.update, hj]

/-- Witness for C4: operand 5 on the machine holding 11 in every cell and 7
in the accumulator. -/
theorem execute_data_effect_witness :
    execute_instruction (Machine.filled 11 7 []) 105 =
      Outcome.running { Machine.filled 11 7 [] with accumulator := 18 } ∧
    execute_instruction (Machine.filled 11 7 []) 205 =
      Outcome.running { Machine.filled 11 7 [] with accumulator := -4 } ∧
    execute_instruction (Machine.filled 11 7 []) 405 =
      Outcome.running { Machine.filled 11 7 [] with accumulator := 11 } ∧
    ∃ t, execute_instruction (Machine.filled 11 7 []) 305 = Outcome.running t ∧
      t.memory 5 = 7 ∧ (∀ j, j ≠ 5 → t.memory j = 11) ∧ t.accumulator = 7 :=
  have h := execute_data_effect (Machine.filled 11 7 []) 5 (by decide)
  ⟨h.1.2 (by decide), h.2.1.2 (by decide), h.2.2.1,
    h.2.2.2.elim fun t ht => ⟨t, ht.1, ht.2.1, ht.2.2.1, ht.2.2.2.1⟩⟩

/-- C5: for an address `a` in 0..99, STORE a (300+a) followed at once by
LOAD a (400+a), both through `execute_instruction`, leaves the accumulator
at its value before the STORE and `Memory[a]` at that same value. -/
theorem store_then_load (s : Machine) (a : Fin MEMORY_SIZE) (ha : a.val < 100) :
    ∃ s1 s2, execute_instruction s (300 + (a.val : Int)) = Outcome.running s1 ∧
      execute_instruction s1 (400 + (a.val : Int)) = Outcome.running s2 ∧
      s2.accumulator = s.accumulator ∧ s2.memory a = s.accumulator := by
  have h3 := decode_instruction (300 + (a.val : Int)) 3 a.val (by omega) (by decide)
    (by omega) (by omega)
  have h4 := decode_instruction (400 + (a.val : Int)) 4 a.val (by omega) (by decide)
    (by omega) (by omega)
  refine ⟨{ s with memory := Function.update s.memory a s.accumulator },
    { s with memory := Function.update s.memory a s.accumulator }, ?_, ?_, rfl, ?_⟩
  · rw [execute_dispatch s _ a h3.2]; simp [h3.1]
  · rw [execute_dispatch _ _ a h4.2]; simp [h4.1]
  · simp

/-- Witness for C5: address 5, accumulator 7, every cell holding 11. -/
theorem store_then_load_witness :
    ∃ s1 s2, execute_instruction (Machine.filled 11 7 []) 305 = Outcome.running s1 ∧
      execute_instruction s1 405 = Outcome.running s2 ∧
      s2.accumulator = 7 ∧ s2.memory 5 = 7 :=
  store_then_load (Machine.filled 11 7 []) 5 (by decide)



/-- An operand outside the array stops `execute_instruction` at its guard. -/
theorem execute_out_of_range (s : Machine) (instruction : Int)
    (h : out_of_range (operand_of instruction)) :
    execute_instruction s instruction =
      Outcome.exited (Exit.failure (Fatal.invalidOperand (operand_of instruction))) s := by
  unfold execute_instruction
  simp only [dif_pos h]

/-- The four ways `execute_instruction` can end once the operand guard has
let the instruction through. -/
theorem execute_in_range_cases (s : Machine) (instruction : Int)
    (h : ¬ out_of_range (operand_of instruction)) :
    (∃ t, execute_instruction s instruction = Outcome.running t) ∨
    execute_instruction s instruction = Outcome.exited Exit.success s ∨
    (∃ t, execute_instruction s instruction =
      Outcome.exited (Exit.failure Fatal.invalidInput) t) ∨
    execute_instruction s instruction =
      Outcome.exited (Exit.failure (Fatal.invalidInstruction instruction)) s := by
  have h0 : 0 ≤ operand_of instruction := by
    unfold out_of_range at h; omega
  obtain ⟨a, ha, _⟩ := operand_cell instruction h0
  rw [execute_dispatch s _ a ha]
  by_cases h1 : opcode_of instruction = 1
  · rw [if_pos h1]; exact Or.inl ⟨_, rfl⟩
  rw [if_neg h1]
  by_cases h2 : opcode_of instruction = 2
  · rw [if_pos h2]; exact Or.inl ⟨_, rfl⟩
  rw [if_neg h2]
  by_cases h3 : opcode_of instruction = 3
  · rw [if_pos h3]; exact Or.inl ⟨_, rfl⟩
  rw [if_neg h3]
  by_cases h4 : opcode_of instruction = 4
  · rw [if_pos h4]; exact Or.inl ⟨_, rfl⟩
  rw [if_neg h4]
  by_cases h5 : opcode_of instruction = 5
  · rw [if_pos h5]; exact Or.inl ⟨_, rfl⟩
  rw [if_neg h5]
  by_cases h6 : opcode_of instruction = 6
  · rw [if_pos h6]
    by_cases hz : s.accumulator = 0
    · rw [if_pos hz]; exact Or.inl ⟨_, rfl⟩
    · rw [if_neg hz]; exact Or.inl ⟨_, rfl⟩
  rw [if_neg h6]
  by_cases h7 : opcode_of instruction = 7
  · rw [if_pos h7]
    by_cases hz : s.accumulator > 0
    · rw [if_pos hz]; exact Or.inl ⟨_, rfl⟩
    · rw [if_neg hz]; exact Or.inl ⟨_, rfl⟩
  rw [if_neg h7]
  by_cases h8 : opcode_of instruction = 8
  · rw [if_pos h8]
    split
    · exact Or.inl ⟨_, rfl⟩
    · exact Or.inr (Or.inr (Or.inl ⟨_, rfl⟩))
  rw [if_neg h8]
  by_cases h9 : opcode_of instruction = 9
  · rw [if_pos h9]; exact Or.inl ⟨_, rfl⟩
  rw [if_neg h9]
  by_cases h10 : opcode_of instruction = 0
  · rw [if_pos h10]; exact Or.inr (Or.inl rfl)
  rw [if_neg h10]
  exact Or.inr (Or.inr (Or.inr rfl))

theorem execute_in_range_not_invalid_operand (s : Machine) (instruction : Int)
    (h : ¬ out_of_range (operand_of instruction)) :
    ¬ (execute_instruction s instruction).isInvalidOperand := by
  rcases execute_in_range_cases s instruction h with ⟨t, e⟩ | e | ⟨t, e⟩ | e <;>
    rw [e] <;> exact id

/-- C6 (as stated, refuted): the instruction -5 decodes to opcode 0, and the
cycle that fetches it ends the process with the `INVALID OPERAND` failure,
exit status 1, not with success. -/
theorem halt_opcode_negative_instruction_fails :
    opcode_of ((Machine.filled (-5) 0 []).memory 0) = 0 ∧
    cycle (Machine.filled (-5) 0 []) =
      Outcome.exited (Exit.failure (Fatal.invalidOperand (-5))) (Machine.filled (-5) 0 []) ∧
    (Exit.failure (Fatal.invalidOperand (-5))).status ≠ 0 :=
  ⟨by decide, rfl, by decide⟩

/-- C6 (amended): with the program counter `p` inside the memory and a
fetched instruction of decoded opcode 0, the cycle ends the process with the
machine untouched: with success, exit status 0, when the instruction is not
negative (0..99), and with the `INVALID OPERAND` failure, exit status 1, when
it is negative (-99..-1), because the operand guard runs before the
dispatch. -/
theorem cycle_halt (s : Machine) (p : Fin MEMORY_SIZE)
    (hp : s.program_counter = (p.val : Int)) (hop : opcode_of (s.memory p) = 0) :
    (0 ≤ s.memory p → cycle s = Outcome.exited Exit.success s ∧ Exit.success.status = 0) ∧
    (s.memory p < 0 →
      cycle s = Outcome.exited (Exit.failure (Fatal.invalidOperand (s.memory p))) s ∧
      (Exit.failure (Fatal.invalidOperand (s.memory p))).status = 1) := by
  constructor
  · intro hnn
    have h0 : 0 ≤ operand_of (s.memory p) := by
      rcases decode_cases (s.memory p) with ⟨_, _, h3⟩ | ⟨hneg, _, _⟩
      · rw [h3]; omega
      · omega
    obtain ⟨a, ha, _⟩ := operand_cell (s.memory p) h0
    rw [cycle_fetch s p hp, execute_dispatch s _ a ha]
    simp [hop, Exit.status]
  · intro hneg
    have hoperand : operand_of (s.memory p) = s.memory p := by
      rcases decode_cases (s.memory p) with ⟨hnn, _, _⟩ | ⟨_, h2, h3⟩
      · omega
      · rw [h2] at hop; rw [h3]; omega
    have hout : out_of_range (operand_of (s.memory p)) := by
      rw [hoperand]; exact Or.inl hneg
    rw [cycle_fetch s p hp, execute_out_of_range s _ hout, hoperand]
    exact ⟨rfl, rfl⟩

/-- Witness for C6 (amended): the instruction 0 at cell 0. -/
theorem cycle_halt_witness :
    cycle (Machine.filled 0 7 []) = Outcome.exited Exit.success (Machine.filled 0 7 []) ∧
    Exit.success.status = 0 :=
  (cycle_halt (Machine.filled 0 7 []) 0 rfl (by decide)).1 (by decide)

/-- C8: the operand guard is unconditional and runs before the dispatch.
Whatever the opcode, `execute_instruction` ends with the `INVALID OPERAND`
failure exactly when the decoded operand is outside `[0, MEMORY_SIZE)`, and
it then leaves the machine (accumulator, memory, program counter) as it was;
the instruction -1050 is such a case. -/
theorem operand_guard_precedes_dispatch (s : Machine) (instruction : Int) :
    ((execute_instruction s instruction).isInvalidOperand ↔
      (operand_of instruction < 0 ∨ operand_of instruction ≥ MEMORY_SIZE)) ∧
    ((execute_instruction s instruction).isInvalidOperand →
      execute_instruction s instruction =
        Outcome.exited (Exit.failure (Fatal.invalidOperand (operand_of instruction))) s) ∧
    execute_instruction s (-1050) =
      Outcome.exited (Exit.failure (Fatal.invalidOperand (-50))) s := by
  by_cases h : out_of_range (operand_of instruction)
  · have e := execute_out_of_range s instruction h
    refine ⟨⟨fun _ => h, fun _ => ?_⟩, fun _ => e, ?_⟩
    · rw [e]; trivial
    · exact execute_out_of_range s (-1050) (by decide)
  · have hno := execute_in_range_not_invalid_operand s instruction h
    refine ⟨⟨fun hi => absurd hi hno, fun hr => absurd hr h⟩, fun hi => absurd hi hno, ?_⟩
    exact execute_out_of_range s (-1050) (by decide)

/-- One pass through the body of the loop of `load_program`, on an integer
token that is not the sentinel. -/
theorem load_loop_store (i : Nat) (s : Machine) (v : Int) (rest : List Token)
    (hi : i < MEMORY_SIZE) (hin : s.stdin = Token.int v :: rest) (hv : v ≠ -1) :
    load_loop i s =
      load_loop (i + 1)
        { s with stdin := rest, memory := Function.update s.memory ⟨i, hi⟩ v } := by
  rw [load_loop, dif_pos hi]
  have hge : ¬ i ≥ MEMORY_SIZE := by omega
  split
  · rename_i instruction tail heq
    rw [hin] at heq
    injection heq with h1 h2
    injection h1 with h1
    subst h1 h2
    rw [if_neg hv, if_neg hge]
  · rename_i hne
    exact absurd hin (hne v rest)

/-- The loop of `load_program` stopping at the sentinel. -/
theorem load_loop_sentinel (i : Nat) (s : Machine) (rest : List Token)
    (hi : i < MEMORY_SIZE) (hin : s.stdin = Token.int (-1) :: rest) :
    load_loop i s = Outcome.running { s with stdin := rest } := by
  rw [load_loop, dif_pos hi]
  split
  · rename_i instruction tail heq
    rw [hin] at heq
    injection heq with h1 h2
    injection h1 with h1
    subst h1 h2
    rw [if_pos rfl]
  · rename_i hne
    exact absurd hin (hne (-1) rest)

/-- The loop of `load_program` once the loop variable has reached the
capacity. -/
theorem load_loop_full (i : Nat) (s : Machine) (hi : ¬ i < MEMORY_SIZE) :
    load_loop i s = Outcome.running s := by
  rw [load_loop, dif_neg hi]

/-- The loop of `load_program` on a stream whose next token is not an
integer, or that has no next token. -/
theorem load_loop_malformed (i : Nat) (s : Machine) (hi : i < MEMORY_SIZE)
    (hin : ∀ v rest, s.stdin ≠ Token.int v :: rest) :
    load_loop i s = Outcome.exited (Exit.failure Fatal.invalidInput) s := by
  rw [load_loop, dif_pos hi]
  split
  · rename_i instruction tail heq
    exact absurd heq (hin instruction tail)
  · rfl

/-- Whenever the loop of `load_program`, entered at `i`, returns, it has left
the accumulator, the program counter and the cells below `i` alone. -/
theorem load_loop_frame (n : Nat) : ∀ (i : Nat) (s t : Machine),
    MEMORY_SIZE - i = n → load_loop i s = Outcome.running t →
    t.accumulator = s.accumulator ∧ t.program_counter = s.program_counter ∧
      ∀ j : Fin MEMORY_SIZE, j.val < i → t.memory j = s.memory j := by
  induction n with
  | zero =>
    intro i s t hn hrun
    rw [load_loop_full i s (by omega)] at hrun
    injection hrun with hst
    subst hst
    exact ⟨rfl, rfl, fun _ _ => rfl⟩
  | succ n ih =>
    intro i s t hn hrun
    have hi : i < MEMORY_SIZE := by omega
    by_cases hin : ∃ v rest, s.stdin = Token.int v :: rest
    · obtain ⟨v, rest, hin⟩ := hin
      by_cases hv : v = -1
      · subst hv
        rw [load_loop_sentinel i s rest hi hin] at hrun
        injection hrun with hst
        subst hst
        exact ⟨rfl, rfl, fun _ _ => rfl⟩
      · rw [load_loop_store i s v rest hi hin hv] at hrun
        obtain ⟨h1, h2, h3⟩ := ih (i + 1) _ t (by omega) hrun
        refine ⟨h1, h2, fun j hj => ?_⟩
        rw [h3 j (by omega)]
        have hne : j ≠ ⟨i, hi⟩ := by
          intro hji
          rw [hji] at hj
          exact Nat.lt_irrefl _ hj
        simp [Function.update, hne]
    · rw [load_loop_malformed i s hi (fun v rest h => hin ⟨v, rest, h⟩)] at hrun
      cases hrun

/-- A program that loaded: its first instruction is in cell 0, and the
accumulator and the program counter still hold their initial 0. -/
theorem load_program_first (v : Int) (rest : List Token) (s1 : Machine) (hv : v ≠ -1)
    (hload : load_program (Machine.initial (Token.int v :: rest)) = Outcome.running s1) :
    s1.memory 0 = v ∧ s1.accumulator = 0 ∧ s1.program_counter = 0 := by
  unfold load_program at hload
  rw [load_loop_store 0 _ v rest (by decide) rfl hv] at hload
  obtain ⟨h1, h2, h3⟩ := load_loop_frame _ 1 _ s1 rfl hload
  refine ⟨?_, h1, h2⟩
  rw [h3 0 (by decide)]
  rfl

/-- C7: an instruction whose decoded operand is inside `[0, MEMORY_SIZE)` and
whose decoded opcode is outside 0..9 makes `execute_instruction` end with the
`INVALID INSTRUCTION` failure, the machine (accumulator, memory, program
counter) as it was.  In particular, when a program whose first instruction
`v` has opcode 99 has loaded, the first cycle ends with that failure, with
the accumulator 0 and the machine as the loader left it. -/
theorem invalid_instruction (s : Machine) (instruction : Int)
    (hoperand : ¬ out_of_range (operand_of instruction))
    (hopcode : opcode_of instruction < 0 ∨ 9 < opcode_of instruction)
    (v : Int) (rest : List Token) (s1 : Machine) (hv : opcode_of v = 99)
    (hload : load_program (Machine.initial (Token.int v :: rest)) = Outcome.running s1) :
    execute_instruction s instruction =
      Outcome.exited (Exit.failure (Fatal.invalidInstruction instruction)) s ∧
    (cycle s1 = Outcome.exited (Exit.failure (Fatal.invalidInstruction v)) s1 ∧
      s1.accumulator = 0 ∧ s1.program_counter = 0 ∧ s1.memory 0 = v) := by
  have key : ∀ (m : Machine) (x : Int), ¬ out_of_range (operand_of x) →
      (opcode_of x < 0 ∨ 9 < opcode_of x) →
      execute_instruction m x =
        Outcome.exited (Exit.failure (Fatal.invalidInstruction x)) m := by
    intro m x hx ho
    have h0 : 0 ≤ operand_of x := by
      unfold out_of_range at hx; omega
    obtain ⟨a, ha, _⟩ := operand_cell x h0
    rw [execute_dispatch m _ a ha]
    repeat rw [if_neg (by omega)]
  refine ⟨key s instruction hoperand hopcode, ?_⟩
  have hne : v ≠ -1 := by
    intro h
    rw [h] at hv
    exact absurd hv (by decide)
  obtain ⟨h1, h2, h3⟩ := load_program_first v rest s1 hne hload
  refine ⟨?_, h2, h3, h1⟩
  have hop : ¬ out_of_range (operand_of v) := by
    have := operand_of_pos_opcode v (by omega)
    unfold out_of_range
    simp only [MEMORY_SIZE]
    omega
  rw [cycle_fetch s1 0 (by rw [h3]; rfl), h1, key s1 v hop (by omega)]

/-- Witness for C7: the instruction 9900 on a machine, and the program
`9900` followed by the sentinel. -/
theorem invalid_instruction_witness :
    execute_instruction (Machine.filled 0 7 []) 9900 =
      Outcome.exited (Exit.failure (Fatal.invalidInstruction 9900)) (Machine.filled 0 7 []) ∧
    ∃ s1, load_program (Machine.initial [Token.int 9900, Token.int (-1)]) = Outcome.running s1 ∧
      cycle s1 = Outcome.exited (Exit.failure (Fatal.invalidInstruction 9900)) s1 ∧
      s1.accumulator = 0 ∧ s1.program_counter = 0 ∧ s1.memory 0 = 9900 :=
  have hload : load_program (Machine.initial [Token.int 9900, Token.int (-1)]) =
      Outcome.running
        { memory := Function.update (fun _ => 0) 0 9900, accumulator := 0, program_counter := 0,
          stdin := [], stdout := [OutEvent.banner, OutEvent.enterProgram] } := by
    rw [load_program, load_loop_store 0 _ 9900 [Token.int (-1)] (by decide) rfl (by decide),
      load_loop_sentinel 1 _ [] (by decide) rfl]
    rfl
  have h := invalid_instruction (Machine.filled 0 7 []) 9900 (by decide) (by decide)
    9900 [Token.int (-1)] _ (by decide) hload
  ⟨h.1, _, hload, h.2⟩

/-- C9 (as stated, refuted): no instruction decodes to the operand 255, so
none with that operand is executed. -/
theorem no_instruction_decodes_to_last_cell :
    ¬ ∃ (s : Machine) (instruction : Int), operand_of instruction = 255 ∧
        ¬ (execute_instruction s instruction).isInvalidOperand := by
  rintro ⟨_, instruction, h, _⟩
  have := operand_bounds instruction
  omega

/-- C9 (amended): the guard `operand < 0 || operand >= MEMORY_SIZE` lets the
value 255 through and stops the value 256, but no instruction decodes to
either, every decoded operand lying in -99..99.  The largest operand an
instruction decodes to, 99 (instruction 199), is executed without the
`INVALID OPERAND` failure, and the operands the guard does stop are the
negative ones (instruction -1, operand -1). -/
theorem operand_guard_boundary :
    (¬ out_of_range 255 ∧ out_of_range 256) ∧
    (∀ instruction : Int, -99 ≤ operand_of instruction ∧ operand_of instruction ≤ 99) ∧
    (∀ s : Machine, operand_of 199 = 99 ∧ ¬ (execute_instruction s 199).isInvalidOperand) ∧
    (∀ (s : Machine) (instruction : Int),
      (execute_instruction s instruction).isInvalidOperand ↔ operand_of instruction < 0) ∧
    (∀ s : Machine, operand_of (-1) = -1 ∧
      execute_instruction s (-1) =
        Outcome.exited (Exit.failure (Fatal.invalidOperand (-1))) s) := by
  refine ⟨⟨by decide, by decide⟩, operand_bounds, fun s => ⟨by decide, ?_⟩, ?_,
    fun s => ⟨by decide, execute_out_of_range s (-1) (by decide)⟩⟩
  · exact execute_in_range_not_invalid_operand s 199 (by decide)
  · intro s instruction
    have hb := operand_bounds instruction
    constructor
    · intro hi
      by_cases h : out_of_range (operand_of instruction)
      · unfold out_of_range at h
        simp only [MEMORY_SIZE] at h
        omega
      · exact absurd hi (execute_in_range_not_invalid_operand s instruction h)
    · intro hneg
      rw [execute_out_of_range s instruction (Or.inl hneg)]
      trivial

/-- The loop of `load_program`, entered at `i` with the integers `vs` (none
of them -1) and then the sentinel to read, with room for all of `vs`:
it returns, with `vs` in the cells from `i` on and every other cell, the
accumulator and the program counter as they were. -/
theorem load_loop_populates (vs : List Int) : ∀ (i : Nat) (s : Machine) (rest : List Token),
    (∀ v ∈ vs, v ≠ -1) → i + vs.length ≤ MEMORY_SIZE →
    s.stdin = vs.map Token.int ++ Token.int (-1) :: rest →
    ∃ t, load_loop i s = Outcome.running t ∧
      t.accumulator = s.accumulator ∧ t.program_counter = s.program_counter ∧
      (∀ j : Fin MEMORY_SIZE, j.val < i ∨ i + vs.length ≤ j.val → t.memory j = s.memory j) ∧
      (∀ j : Fin MEMORY_SIZE, i ≤ j.val → j.val < i + vs.length →
        vs[j.val - i]? = some (t.memory j)) := by
  induction vs with
  | nil =>
    intro i s rest _ _ hin
    by_cases hi : i < MEMORY_SIZE
    · refine ⟨_, load_loop_sentinel i s rest hi hin, rfl, rfl, fun _ _ => rfl, ?_⟩
      intro j h1 h2
      simp only [List.length_nil] at h2
      omega
    · refine ⟨_, load_loop_full i s hi, rfl, rfl, fun _ _ => rfl, ?_⟩
      intro j h1 h2
      simp only [List.length_nil] at h2
      omega
  | cons v vs ih =>
    intro i s rest hne hlen hin
    simp only [List.length_cons] at hlen
    have hi : i < MEMORY_SIZE := by omega
    have hv : v ≠ -1 := hne v (List.mem_cons_self v vs)
    obtain ⟨t, hrun, hacc, hpc, hframe, hcells⟩ :=
      ih (i + 1) { s with stdin := vs.map Token.int ++ Token.int (-1) :: rest,
                          memory := Function.update s.memory ⟨i, hi⟩ v } rest
        (fun w hw => hne w (List.mem_cons_of_mem v hw)) (by omega) rfl
    refine ⟨t, ?_, hacc, hpc, ?_, ?_⟩
    · rw [load_loop_store i s v _ hi hin hv]
      exact hrun
    · intro j hj
      simp only [List.length_cons] at hj
      rw [hframe j (by omega)]
      have hji : j ≠ ⟨i, hi⟩ := by
        intro h
        rw [h] at hj
        simp only at hj
        omega
      simp [Function.update, hji]
    · intro j h1 h2
      simp only [List.length_cons] at h2
      by_cases hji : j.val = i
      · have hj : j = ⟨i, hi⟩ := Fin.ext hji
        rw [hframe j (by omega), hj]
        simp
      · have hsub : j.val - i = (j.val - (i + 1)) + 1 := by omega
        rw [hsub, List.getElem?_cons_succ]
        exact hcells j (by omega) (by omega)

/-- C10: for `k ≤ MEMORY_SIZE` integers `vs`, none of them -1, the loader run
from the initial machine on the stream `vs`, -1 (whatever follows) returns
normally with `Memory[j] = vs[j]` for `j < k` and `Memory[j] = 0` for
`k ≤ j < MEMORY_SIZE`: the sentinel is not stored and no value is turned
down for its opcode or operand. -/
theorem load_program_populates (vs : List Int) (rest : List Token)
    (hk : vs.length ≤ MEMORY_SIZE) (hv : ∀ v ∈ vs, v ≠ -1) :
    ∃ t, load_program (Machine.initial (vs.map Token.int ++ Token.int (-1) :: rest)) =
        Outcome.running t ∧
      (∀ j : Fin MEMORY_SIZE, j.val < vs.length → vs[j.val]? = some (t.memory j)) ∧
      (∀ j : Fin MEMORY_SIZE, vs.length ≤ j.val → t.memory j = 0) ∧
      t.accumulator = 0 ∧ t.program_counter = 0 := by
  obtain ⟨t, hrun, hacc, hpc, hframe, hcells⟩ :=
    load_loop_populates vs 0
      { Machine.initial (vs.map Token.int ++ Token.int (-1) :: rest) with
        stdout := (Machine.initial (vs.map Token.int ++ Token.int (-1) :: rest)).stdout ++
          [OutEvent.banner, OutEvent.enterProgram] }
      rest hv (by omega) rfl
  refine ⟨t, hrun, ?_, ?_, hacc, hpc⟩
  · intro j hj
    exact hcells j (Nat.zero_le _) (by omega)
  · intro j hj
    rw [hframe j (Or.inr (by omega))]
    rfl

/-- Witness for C10: five integers and the sentinel. -/
theorem load_program_populates_witness :
    ∃ t, load_program (Machine.initial
          (([109, 0, -1050, 9900, 7] : List Int).map Token.int ++ Token.int (-1) :: [])) =
        Outcome.running t ∧
      (∀ j : Fin MEMORY_SIZE, j.val < ([109, 0, -1050, 9900, 7] : List Int).length →
        ([109, 0, -1050, 9900, 7] : List Int)[j.val]? = some (t.memory j)) ∧
      (∀ j : Fin MEMORY_SIZE, ([109, 0, -1050, 9900, 7] : List Int).length ≤ j.val →
        t.memory j = 0) ∧
      t.accumulator = 0 ∧ t.program_counter = 0 :=
  load_program_populates [109, 0, -1050, 9900, 7] [] (by decide) (by decide)

/-! ## The loader on a run of integer tokens -/

/-- The loop of `load_program`, entered at `i`, reading the integers `vs`
(none of them -1, with room for all of them): it stores them in the cells
from `i` on and goes on, at `i + vs.length`, with the rest of the stream. -/
theorem load_loop_prefix (vs : List Int) : ∀ (i : Nat) (s : Machine) (rest : List Token),
    (∀ v ∈ vs, v ≠ -1) → i + vs.length ≤ MEMORY_SIZE →
    s.stdin = vs.map Token.int ++ rest →
    ∃ t, load_loop i s = load_loop (i + vs.length) t ∧ t.stdin = rest ∧
      t.accumulator = s.accumulator ∧ t.program_counter = s.program_counter ∧
      t.stdout = s.stdout ∧
      (∀ j : Fin MEMORY_SIZE, j.val < i ∨ i + vs.length ≤ j.val → t.memory j = s.memory j) ∧
      (∀ j : Fin MEMORY_SIZE, i ≤ j.val → j.val < i + vs.length →
        vs[j.val - i]? = some (t.memory j)) := by
  induction vs with
  | nil =>
    intro i s rest _ _ hin
    refine ⟨s, rfl, hin, rfl, rfl, rfl, fun _ _ => rfl, ?_⟩
    intro j h1 h2
    simp only [List.length_nil] at h2
    omega
  | cons v vs ih =>
    intro i s rest hne hlen hin
    simp only [List.length_cons] at hlen
    have hi : i < MEMORY_SIZE := by omega
    have hv : v ≠ -1 := hne v (List.mem_cons_self v vs)
    obtain ⟨t, hrun, hstdin, hacc, hpc, hout, hframe, hcells⟩ :=
      ih (i + 1) { s with stdin := vs.map Token.int ++ rest,
                          memory := Function.update s.memory ⟨i, hi⟩ v } rest
        (fun w hw => hne w (List.mem_cons_of_mem v hw)) (by omega) rfl
    refine ⟨t, ?_, hstdin, hacc, hpc, hout, ?_, ?_⟩
    · have harith : i + (v :: vs).length = i + 1 + vs.length := by
        simp only [List.length_cons]
        omega
      rw [load_loop_store i s v (vs.map Token.int ++ rest) hi hin hv, harith]
      exact hrun
    · intro j hj
      simp only [List.length_cons] at hj
      rw [hframe j (by omega)]
      have hji : j ≠ ⟨i, hi⟩ := by
        intro h
        rw [h] at hj
        simp only at hj
        omega
      simp [Function.update, hji]
    · intro j h1 h2
      simp only [List.length_cons] at h2
      by_cases hji : j.val = i
      · have hj : j = ⟨i, hi⟩ := Fin.ext hji
        rw [hframe j (by omega), hj]
        simp
      · have hsub : j.val - i = (j.val - (i + 1)) + 1 := by omega
        rw [hsub, List.getElem?_cons_succ]
        exact hcells j (by omega) (by omega)

/-- The loop of `load_program` on a stream of integers (whatever their
values) that either fills the memory or is followed by the sentinel: it
returns. -/
theorem load_loop_returns (vs : List Int) : ∀ (i : Nat) (s : Machine) (rest : List Token),
    s.stdin = vs.map Token.int ++ rest →
    (MEMORY_SIZE ≤ i + vs.length ∨ ∃ r, rest = Token.int (-1) :: r) →
    ∃ t, load_loop i s = Outcome.running t := by
  induction vs with
  | nil =>
    intro i s rest hin hor
    by_cases hi : i < MEMORY_SIZE
    · rcases hor with h | ⟨r, hr⟩
      · simp only [List.length_nil] at h
        omega
      · subst hr
        exact ⟨_, load_loop_sentinel i s r hi hin⟩
    · exact ⟨_, load_loop_full i s hi⟩
  | cons v vs ih =>
    intro i s rest hin hor
    by_cases hi : i < MEMORY_SIZE
    · by_cases hv : v = -1
      · subst hv
        exact ⟨_, load_loop_sentinel i s _ hi hin⟩
      · rw [load_loop_store i s v _ hi hin hv]
        apply ih (i + 1) _ rest rfl
        rcases hor with h | h
        · left
          simp only [List.length_cons] at h
          omega
        · exact Or.inr h
    · exact ⟨_, load_loop_full i s hi⟩

/-- The loop of `load_program` never reaches its `MEMORY OVERFLOW` exit: the
test `i >= MEMORY_SIZE` sits inside a loop that runs only while
`i < MEMORY_SIZE`. -/
theorem load_loop_never_overflows (n : Nat) : ∀ (i : Nat) (s t : Machine),
    MEMORY_SIZE - i = n →
    load_loop i s ≠ Outcome.exited (Exit.failure Fatal.memoryOverflow) t := by
  induction n with
  | zero =>
    intro i s t hn
    rw [load_loop_full i s (by omega)]
    intro h
    cases h
  | succ n ih =>
    intro i s t hn
    have hi : i < MEMORY_SIZE := by omega
    by_cases hin : ∃ v rest, s.stdin = Token.int v :: rest
    · obtain ⟨v, rest, hin⟩ := hin
      by_cases hv : v = -1
      · subst hv
        rw [load_loop_sentinel i s rest hi hin]
        intro h
        cases h
      · rw [load_loop_store i s v rest hi hin hv]
        exact ih (i + 1) _ t (by omega)
    · rw [load_loop_malformed i s hi (fun v rest h => hin ⟨v, rest, h⟩)]
      intro h
      cases h

/-- C11 (evaluation of the code): given 257 integers, all of them 7, the
loader does not fail.  It returns normally with 7 in each of the 256 cells
and leaves the 257th integer unread on the input stream.  In fact no call of
`load_program` ever ends with the `MEMORY OVERFLOW` failure. -/
theorem loader_overflow_unreachable :
    (∃ t, load_program (Machine.initial
          ((List.replicate 256 (7 : Int)).map Token.int ++ [Token.int 7])) =
        Outcome.running t ∧
      t.stdin = [Token.int 7] ∧ ∀ j : Fin MEMORY_SIZE, t.memory j = 7) ∧
    ∀ s u : Machine,
      load_program s ≠ Outcome.exited (Exit.failure Fatal.memoryOverflow) u := by
  constructor
  · obtain ⟨t, hrun, hstdin, _, _, _, _, hcells⟩ :=
      load_loop_prefix (List.replicate 256 (7 : Int)) 0
        { Machine.initial ((List.replicate 256 (7 : Int)).map Token.int ++ [Token.int 7]) with
          stdout := (Machine.initial
            ((List.replicate 256 (7 : Int)).map Token.int ++ [Token.int 7])).stdout ++
              [OutEvent.banner, OutEvent.enterProgram] }
        [Token.int 7]
        (fun v hv => by rw [List.eq_of_mem_replicate hv]; decide)
        (by rw [List.length_replicate])
        rfl
    refine ⟨t, ?_, hstdin, ?_⟩
    · unfold load_program
      rw [hrun]
      exact load_loop_full _ t (by rw [List.length_replicate]; decide)
    · intro j
      have hj : j.val < 256 := j.isLt
      have h := hcells j (Nat.zero_le _) (by rw [List.length_replicate]; omega)
      simp only [Nat.sub_zero, List.getElem?_replicate, hj, if_true, Option.some.injEq] at h
      exact h.symm
  · intro s u
    exact load_loop_never_overflows _ 0 _ u rfl

/-- C12: the loader ends with the `INVALID INPUT` failure when, before any
sentinel and before the memory is full, the stream ends or yields a token
that is not an integer; and it returns, hence does not report that failure,
when the first `MEMORY_SIZE` tokens are integers or when a -1 comes before
the first token that is not an integer. -/
theorem loader_malformed_input (vs : List Int) (rest : List Token) :
    (vs.length < MEMORY_SIZE → (∀ v ∈ vs, v ≠ -1) →
      (∃ t, load_program (Machine.initial (vs.map Token.int)) =
        Outcome.exited (Exit.failure Fatal.invalidInput) t) ∧
      (∃ t, load_program (Machine.initial (vs.map Token.int ++ Token.other :: rest)) =
        Outcome.exited (Exit.failure Fatal.invalidInput) t)) ∧
    (MEMORY_SIZE ≤ vs.length →
      ∃ t, load_program (Machine.initial (vs.map Token.int ++ rest)) = Outcome.running t) ∧
    (∃ t, load_program (Machine.initial (vs.map Token.int ++ Token.int (-1) :: rest)) =
      Outcome.running t) := by
  refine ⟨fun hlen hne => ⟨?_, ?_⟩, fun hlen => ?_, ?_⟩
  · obtain ⟨t, hrun, hstdin, _⟩ :=
      load_loop_prefix vs 0
        { Machine.initial (vs.map Token.int) with
          stdout := (Machine.initial (vs.map Token.int)).stdout ++
            [OutEvent.banner, OutEvent.enterProgram] }
        [] hne (by omega) (by simp [Machine.initial])
    refine ⟨t, ?_⟩
    unfold load_program
    rw [hrun]
    apply load_loop_malformed _ t (by omega)
    intro v r h
    rw [hstdin] at h
    cases h
  · obtain ⟨t, hrun, hstdin, _⟩ :=
      load_loop_prefix vs 0
        { Machine.initial (vs.map Token.int ++ Token.other :: rest) with
          stdout := (Machine.initial (vs.map Token.int ++ Token.other :: rest)).stdout ++
            [OutEvent.banner, OutEvent.enterProgram] }
        (Token.other :: rest) hne (by omega) rfl
    refine ⟨t, ?_⟩
    unfold load_program
    rw [hrun]
    apply load_loop_malformed _ t (by omega)
    intro v r h
    rw [hstdin] at h
    cases h
  · unfold load_program
    exact load_loop_returns vs 0 _ rest rfl (Or.inl (by omega))
  · unfold load_program
    exact load_loop_returns vs 0 _ (Token.int (-1) :: rest) rfl (Or.inr ⟨rest, rfl⟩)

/-- Witness for C12: two integers and then the end of the stream, or a
token that is not an integer; the same two integers and then the sentinel. -/
theorem loader_malformed_input_witness :
    ((∃ t, load_program (Machine.initial (([109, 0] : List Int).map Token.int)) =
        Outcome.exited (Exit.failure Fatal.invalidInput) t) ∧
      (∃ t, load_program (Machine.initial
          (([109, 0] : List Int).map Token.int ++ Token.other :: [Token.int 5])) =
        Outcome.exited (Exit.failure Fatal.invalidInput) t)) ∧
    (∃ t, load_program (Machine.initial
        (([109, 0] : List Int).map Token.int ++ Token.int (-1) :: [Token.int 5])) =
      Outcome.running t) :=
  have h := loader_malformed_input [109, 0] [Token.int 5]
  ⟨h.1 (by decide) (by decide), h.2.2⟩

/-! ## Every way through the dispatch -/

/-- Once the operand guard has let an instruction through, its operand names
a cell `a` below 100 and `execute_instruction` does one of fourteen things,
according to the opcode, the accumulator and the next input token. -/
theorem execute_shape (s : Machine) (i : Int) (h : ¬ out_of_range (operand_of i)) :
    ∃ a : Fin MEMORY_SIZE, a.val < 100 ∧ operand_of i = (a.val : Int) ∧
      ((opcode_of i = 1 ∧ execute_instruction s i =
          Outcome.running { s with accumulator := wrap32 (s.accumulator + s.memory a) }) ∨
       (opcode_of i = 2 ∧ execute_instruction s i =
          Outcome.running { s with accumulator := wrap32 (s.accumulator - s.memory a) }) ∨
       (opcode_of i = 3 ∧ execute_instruction s i =
          Outcome.running { s with memory := Function.update s.memory a s.accumulator }) ∨
       (opcode_of i = 4 ∧ execute_instruction s i =
          Outcome.running { s with accumulator := s.memory a }) ∨
       (taken_jump s i ∧ execute_instruction s i =
          Outcome.running { s with program_counter := (a.val : Int) }) ∨
       ((opcode_of i = 6 ∨ opcode_of i = 7) ∧ ¬ taken_jump s i ∧
          execute_instruction s i = Outcome.running s) ∨
       (opcode_of i = 8 ∧ ∃ v rest, s.stdin = Token.int v :: rest ∧
          execute_instruction s i =
            Outcome.running
              { s with stdout := s.stdout ++ [OutEvent.enterNumber], stdin := rest,
                       memory := Function.update s.memory a v }) ∨
       (opcode_of i = 8 ∧ (∀ v rest, s.stdin ≠ Token.int v :: rest) ∧
          execute_instruction s i =
            Outcome.exited (Exit.failure Fatal.invalidInput)
              { s with stdout := s.stdout ++ [OutEvent.enterNumber] }) ∨
       (opcode_of i = 9 ∧ execute_instruction s i =
          Outcome.running { s with stdout := s.stdout ++ [OutEvent.output (s.memory a)] }) ∨
       (opcode_of i = 0 ∧ execute_instruction s i = Outcome.exited Exit.success s) ∨
       ((opcode_of i < 0 ∨ 9 < opcode_of i) ∧ execute_instruction s i =
          Outcome.exited (Exit.failure (Fatal.invalidInstruction i)) s)) := by
  have h0 : 0 ≤ operand_of i := by
    unfold out_of_range at h; omega
  obtain ⟨a, ha, ha100⟩ := operand_cell i h0
  refine ⟨a, ha100, ha, ?_⟩
  have hd := execute_dispatch s i a ha
  have hsplit : opcode_of i = 1 ∨ opcode_of i = 2 ∨ opcode_of i = 3 ∨ opcode_of i = 4 ∨
      opcode_of i = 5 ∨ opcode_of i = 6 ∨ opcode_of i = 7 ∨ opcode_of i = 8 ∨
      opcode_of i = 9 ∨ opcode_of i = 0 ∨ (opcode_of i < 0 ∨ 9 < opcode_of i) := by omega
  rcases hsplit with k | k | k | k | k | k | k | k | k | k | k
  · left
    exact ⟨k, by rw [hd, if_pos k]⟩
  · right; left
    exact ⟨k, by rw [hd, if_neg (by omega), if_pos k]⟩
  · right; right; left
    exact ⟨k, by rw [hd, if_neg (by omega), if_neg (by omega), if_pos k]⟩
  · right; right; right; left
    refine ⟨k, ?_⟩
    rw [hd]
    repeat rw [if_neg (by omega)]
    rw [if_pos k]
  · right; right; right; right; left
    refine ⟨Or.inl k, ?_⟩
    rw [hd]
    repeat rw [if_neg (by omega)]
    rw [if_pos k]
  · have e : execute_instruction s i =
        if s.accumulator = 0 then Outcome.running { s with program_counter := (a.val : Int) }
        else Outcome.running s := by
      rw [hd]
      repeat rw [if_neg (by omega)]
      rw [if_pos k]
    by_cases hz : s.accumulator = 0
    · right; right; right; right; left
      exact ⟨Or.inr (Or.inl ⟨k, hz⟩), by rw [e, if_pos hz]⟩
    · right; right; right; right; right; left
      refine ⟨Or.inl k, ?_, by rw [e, if_neg hz]⟩
      unfold taken_jump
      omega
  · have e : execute_instruction s i =
        if s.accumulator > 0 then Outcome.running { s with program_counter := (a.val : Int) }
        else Outcome.running s := by
      rw [hd]
      repeat rw [if_neg (by omega)]
      rw [if_pos k]
    by_cases hz : s.accumulator > 0
    · right; right; right; right; left
      exact ⟨Or.inr (Or.inr ⟨k, hz⟩), by rw [e, if_pos hz]⟩
    · right; right; right; right; right; left
      refine ⟨Or.inr k, ?_, by rw [e, if_neg hz]⟩
      unfold taken_jump
      omega
  · have e : execute_instruction s i =
        match s.stdin with
        | Token.int v :: rest =>
          Outcome.running
            { s with stdout := s.stdout ++ [OutEvent.enterNumber], stdin := rest,
                     memory := Function.update s.memory a v }
        | _ =>
          Outcome.exited (Exit.failure Fatal.invalidInput)
            { s with stdout := s.stdout ++ [OutEvent.enterNumber] } := by
      rw [hd]
      repeat rw [if_neg (by omega)]
      rw [if_pos k]
    by_cases hin : ∃ v rest, s.stdin = Token.int v :: rest
    · obtain ⟨v, rest, hin⟩ := hin
      right; right; right; right; right; right; left
      refine ⟨k, v, rest, hin, ?_⟩
      rw [e, hin]
    · right; right; right; right; right; right; right; left
      have hno : ∀ v rest, s.stdin ≠ Token.int v :: rest := fun v rest hv => hin ⟨v, rest, hv⟩
      refine ⟨k, hno, ?_⟩
      rw [e]
      split
      · rename_i v rest heq
        exact absurd heq (hno v rest)
      · rfl
  · right; right; right; right; right; right; right; right; left
    refine ⟨k, ?_⟩
    rw [hd]
    repeat rw [if_neg (by omega)]
    rw [if_pos k]
  · right; right; right; right; right; right; right; right; right; left
    refine ⟨k, ?_⟩
    rw [hd]
    repeat rw [if_neg (by omega)]
    rw [if_pos k]
  · right; right; right; right; right; right; right; right; right; right
    refine ⟨k, ?_⟩
    rw [hd]
    repeat rw [if_neg (by omega)]

theorem results_append (xs ys : List OutEvent) :
    results (xs ++ ys) = results xs ++ results ys := by
  induction xs with
  | nil => rfl
  | cons x xs ih =>
    cases x <;> simp [results, ih]

/-- No instruction changes a cell from 100 on, however it ends. -/
theorem execute_high_cells (s : Machine) (i : Int) (j : Fin MEMORY_SIZE)
    (hj : 100 ≤ j.val) : (execute_instruction s i).machine.memory j = s.memory j := by
  by_cases h : out_of_range (operand_of i)
  · rw [execute_out_of_range s i h]
    rfl
  · obtain ⟨a, ha, _, hcases⟩ := execute_shape s i h
    have hne : j ≠ a := by
      intro hja
      rw [hja] at hj
      omega
    rcases hcases with ⟨_, e⟩ | ⟨_, e⟩ | ⟨_, e⟩ | ⟨_, e⟩ | ⟨_, e⟩ | ⟨_, _, e⟩ |
      ⟨_, v, rest, _, e⟩ | ⟨_, _, e⟩ | ⟨_, e⟩ | ⟨_, e⟩ | ⟨_, e⟩ <;> rw [e] <;>
      simp [Outcome.machine, Function.update, hne]

/-- Only the `OUTPUT` case prints a result value. -/
theorem execute_results (s : Machine) (i : Int) (h9 : opcode_of i ≠ 9) :
    results (execute_instruction s i).machine.stdout = results s.stdout := by
  by_cases h : out_of_range (operand_of i)
  · rw [execute_out_of_range s i h]
    rfl
  · obtain ⟨a, _, _, hcases⟩ := execute_shape s i h
    rcases hcases with ⟨_, e⟩ | ⟨_, e⟩ | ⟨_, e⟩ | ⟨_, e⟩ | ⟨_, e⟩ | ⟨_, _, e⟩ |
      ⟨_, v, rest, _, e⟩ | ⟨_, _, e⟩ | ⟨k, e⟩ | ⟨_, e⟩ | ⟨_, e⟩
    all_goals first
      | exact absurd k h9
      | (rw [e]; simp [Outcome.machine, results_append, results])

/-- Where an instruction that returns leaves the program counter: on the
operand, a value in 0..99, when it is a taken jump, and alone otherwise. -/
theorem execute_running_pc (s t : Machine) (i : Int)
    (hrun : execute_instruction s i = Outcome.running t) :
    (taken_jump s i ∧ 0 ≤ t.program_counter ∧ t.program_counter ≤ 99) ∨
    (¬ taken_jump s i ∧ t.program_counter = s.program_counter) := by
  by_cases h : out_of_range (operand_of i)
  · rw [execute_out_of_range s i h] at hrun
    cases hrun
  · obtain ⟨a, ha, _, hcases⟩ := execute_shape s i h
    have hnot : ∀ k : Int, opcode_of i = k → k ≠ 5 → k ≠ 6 → k ≠ 7 → ¬ taken_jump s i := by
      intro k hk h5 h6 h7
      unfold taken_jump
      omega
    rcases hcases with ⟨k, e⟩ | ⟨k, e⟩ | ⟨k, e⟩ | ⟨k, e⟩ | ⟨k, e⟩ | ⟨_, k, e⟩ |
      ⟨k, v, rest, _, e⟩ | ⟨_, _, e⟩ | ⟨k, e⟩ | ⟨_, e⟩ | ⟨_, e⟩
    · rw [e] at hrun; injection hrun with hrun; subst hrun
      exact Or.inr ⟨hnot 1 k (by decide) (by decide) (by decide), rfl⟩
    · rw [e] at hrun; injection hrun with hrun; subst hrun
      exact Or.inr ⟨hnot 2 k (by decide) (by decide) (by decide), rfl⟩
    · rw [e] at hrun; injection hrun with hrun; subst hrun
      exact Or.inr ⟨hnot 3 k (by decide) (by decide) (by decide), rfl⟩
    · rw [e] at hrun; injection hrun with hrun; subst hrun
      exact Or.inr ⟨hnot 4 k (by decide) (by decide) (by decide), rfl⟩
    · rw [e] at hrun; injection hrun with hrun; subst hrun
      refine Or.inl ⟨k, ?_, ?_⟩
      · simp only; omega
      · simp only; omega
    · rw [e] at hrun; injection hrun with hrun; subst hrun
      exact Or.inr ⟨k, rfl⟩
    · rw [e] at hrun; injection hrun with hrun; subst hrun
      exact Or.inr ⟨hnot 8 k (by decide) (by decide) (by decide), rfl⟩
    · rw [e] at hrun; cases hrun
    · rw [e] at hrun; injection hrun with hrun; subst hrun
      exact Or.inr ⟨hnot 9 k (by decide) (by decide) (by decide), rfl⟩
    · rw [e] at hrun; cases hrun
    · rw [e] at hrun; cases hrun

/-- C13: for an operand `a` in 0..99, INPUT a (800+a) with an integer `v` as
the next token of the input stream stores `v` in `Memory[a]`, takes exactly
that token off the stream, and leaves the accumulator and every other cell
as they were; with no next token, or one that is not an integer, it ends the
process with the `INVALID INPUT` failure, memory and accumulator as they
were.  The stream is the one the loader read from: after a program of fewer
than `MEMORY_SIZE` instructions and its sentinel, INPUT reads the token that
follows the sentinel. -/
theorem execute_input (s : Machine) (a : Fin MEMORY_SIZE) (ha : a.val < 100) :
    (∀ v rest, s.stdin = Token.int v :: rest →
      ∃ t, execute_instruction s (800 + (a.val : Int)) = Outcome.running t ∧
        t.memory a = v ∧ t.stdin = rest ∧ (∀ j, j ≠ a → t.memory j = s.memory j) ∧
        t.accumulator = s.accumulator) ∧
    ((s.stdin = [] ∨ ∃ rest, s.stdin = Token.other :: rest) →
      ∃ t, execute_instruction s (800 + (a.val : Int)) =
          Outcome.exited (Exit.failure Fatal.invalidInput) t ∧
        (∀ j, t.memory j = s.memory j) ∧ t.accumulator = s.accumulator) ∧
    (∀ (vs : List Int) (v : Int) (rest : List Token),
      vs.length < MEMORY_SIZE → (∀ w ∈ vs, w ≠ -1) →
      ∃ t u, load_program (Machine.initial
            (vs.map Token.int ++ Token.int (-1) :: Token.int v :: rest)) = Outcome.running t ∧
        execute_instruction t (800 + (a.val : Int)) = Outcome.running u ∧
        u.memory a = v ∧ u.stdin = rest) := by
  have hd := decode_instruction (800 + (a.val : Int)) 8 a.val (by omega) (by decide)
    (by omega) (by omega)
  have key : ∀ (m : Machine) (v : Int) (rest : List Token), m.stdin = Token.int v :: rest →
      execute_instruction m (800 + (a.val : Int)) =
        Outcome.running
          { m with stdout := m.stdout ++ [OutEvent.enterNumber], stdin := rest,
                   memory := Function.update m.memory a v } := by
    intro m v rest hin
    rw [execute_dispatch m _ a hd.2]
    simp [hd.1, hin]
  refine ⟨?_, ?_, ?_⟩
  · intro v rest hin
    refine ⟨_, key s v rest hin, ?_, rfl, ?_, rfl⟩
    · simp
    · intro j hj
      simp [Function.update, hj]
  · intro hin
    refine ⟨{ s with stdout := s.stdout ++ [OutEvent.enterNumber] }, ?_, fun _ => rfl, rfl⟩
    rw [execute_dispatch s _ a hd.2]
    rcases hin with h | ⟨rest, h⟩ <;> simp [hd.1, h]
  · intro vs v rest hlen hne
    obtain ⟨t, hrun, hstdin, _⟩ :=
      load_loop_prefix vs 0
        { Machine.initial (vs.map Token.int ++ Token.int (-1) :: Token.int v :: rest) with
          stdout := (Machine.initial
            (vs.map Token.int ++ Token.int (-1) :: Token.int v :: rest)).stdout ++
              [OutEvent.banner, OutEvent.enterProgram] }
        (Token.int (-1) :: Token.int v :: rest) hne (by omega) rfl
    refine ⟨{ t with stdin := Token.int v :: rest }, _, ?_,
      key { t with stdin := Token.int v :: rest } v rest rfl, ?_, rfl⟩
    · unfold load_program
      rw [hrun]
      exact load_loop_sentinel _ t _ (by omega) hstdin
    · simp

/-- Witness for C13: INPUT 5 on a machine whose next token is 42. -/
theorem execute_input_witness :
    ∃ t, execute_instruction (Machine.filled 11 7 [Token.int 42, Token.other]) 805 =
        Outcome.running t ∧
      t.memory 5 = 42 ∧ t.stdin = [Token.other] ∧ (∀ j, j ≠ 5 → t.memory j = 11) ∧
      t.accumulator = 7 :=
  (execute_input (Machine.filled 11 7 [Token.int 42, Token.other]) 5 (by decide)).1
    42 [Token.other] rfl

/-- C14: for an operand `a` in 0..99, OUTPUT a (900+a) appends exactly one
value, `Memory[a]`, to what was printed and leaves the accumulator and every
memory cell as they were; an instruction of any other opcode, however it
ends, adds no result value to what was printed. -/
theorem execute_output (s : Machine) (a : Fin MEMORY_SIZE) (ha : a.val < 100) :
    (∃ t, execute_instruction s (900 + (a.val : Int)) = Outcome.running t ∧
      t.stdout = s.stdout ++ [OutEvent.output (s.memory a)] ∧
      results t.stdout = results s.stdout ++ [s.memory a] ∧
      t.accumulator = s.accumulator ∧ ∀ j, t.memory j = s.memory j) ∧
    ∀ i : Int, opcode_of i ≠ 9 →
      results (execute_instruction s i).machine.stdout = results s.stdout := by
  have hd := decode_instruction (900 + (a.val : Int)) 9 a.val (by omega) (by decide)
    (by omega) (by omega)
  refine ⟨⟨{ s with stdout := s.stdout ++ [OutEvent.output (s.memory a)] }, ?_, rfl, ?_,
    rfl, fun _ => rfl⟩, fun i h9 => execute_results s i h9⟩
  · rw [execute_dispatch s _ a hd.2]
    simp [hd.1]
  · simp [results_append, results]

/-- Witness for C14: OUTPUT 5 on the machine holding 11 in every cell. -/
theorem execute_output_witness :
    ∃ t, execute_instruction (Machine.filled 11 7 []) 905 = Outcome.running t ∧
      t.stdout = [OutEvent.output 11] ∧ results t.stdout = [11] ∧
      t.accumulator = 7 ∧ ∀ j, t.memory j = 11 :=
  (execute_output (Machine.filled 11 7 []) 5 (by decide)).1

/-- C16: for an address `a` in 0..99, LOAD a (400+a) executed twice in a row
through `execute_instruction` gives the accumulator the value `Memory[a]`
both times, and the second LOAD changes nothing at all. -/
theorem load_twice (s : Machine) (a : Fin MEMORY_SIZE) (ha : a.val < 100) :
    ∃ s1 s2, execute_instruction s (400 + (a.val : Int)) = Outcome.running s1 ∧
      execute_instruction s1 (400 + (a.val : Int)) = Outcome.running s2 ∧
      s1.accumulator = s.memory a ∧ s2.accumulator = s.memory a ∧
      (∀ j, s2.memory j = s.memory j) ∧ s2 = s1 := by
  have hd := decode_instruction (400 + (a.val : Int)) 4 a.val (by omega) (by decide)
    (by omega) (by omega)
  refine ⟨{ s with accumulator := s.memory a }, { s with accumulator := s.memory a },
    ?_, ?_, rfl, rfl, fun _ => rfl, rfl⟩
  · rw [execute_dispatch s _ a hd.2]; simp [hd.1]
  · rw [execute_dispatch _ _ a hd.2]; simp [hd.1]

/-- Witness for C16: address 5, every cell holding 11, accumulator 7. -/
theorem load_twice_witness :
    ∃ s1 s2, execute_instruction (Machine.filled 11 7 []) 405 = Outcome.running s1 ∧
      execute_instruction s1 405 = Outcome.running s2 ∧
      s1.accumulator = 11 ∧ s2.accumulator = 11 ∧
      (∀ j, s2.memory j = 11) ∧ s2 = s1 :=
  load_twice (Machine.filled 11 7 []) 5 (by decide)

/-- C15: the stream 109, 0, -1 loads as `Memory[0] = 109`, `Memory[1] = 0`
with accumulator 0 and program counter 0.  The first cycle decodes opcode 1
and operand 9, adds `Memory[9] = 0`, so that the accumulator stays 0, and
leaves the program counter at 1; the second cycle fetches `Memory[1] = 0`,
decodes opcode 0 and ends the process with success, exit status 0, the
accumulator still 0. -/
theorem scenario_add_then_halt :
    ∃ s1 s2,
      load_program (Machine.initial [Token.int 109, Token.int 0, Token.int (-1)]) =
        Outcome.running s1 ∧
      s1.accumulator = 0 ∧ s1.program_counter = 0 ∧ s1.memory 0 = 109 ∧
      opcode_of (s1.memory 0) = 1 ∧ operand_of (s1.memory 0) = 9 ∧ s1.memory 9 = 0 ∧
      cycle s1 = Outcome.running s2 ∧
      s2.accumulator = 0 ∧ s2.program_counter = 1 ∧ s2.memory 1 = 0 ∧
      opcode_of (s2.memory 1) = 0 ∧
      cycle s2 = Outcome.exited Exit.success s2 ∧ Exit.success.status = 0 ∧
      main 2 [Token.int 109, Token.int 0, Token.int (-1)] =
        Outcome.exited Exit.success s2 := by
  have hload : load_program (Machine.initial [Token.int 109, Token.int 0, Token.int (-1)]) =
      Outcome.running
        { memory := Function.update (Function.update (fun _ => 0) 0 109) 1 0,
          accumulator := 0, program_counter := 0, stdin := [],
          stdout := [OutEvent.banner, OutEvent.enterProgram] } := by
    rw [load_program,
      load_loop_store 0 _ 109 [Token.int 0, Token.int (-1)] (by decide) rfl (by decide),
      load_loop_store 1 _ 0 [Token.int (-1)] (by decide) rfl (by decide),
      load_loop_sentinel 2 _ [] (by decide) rfl]
    rfl
  refine ⟨_, { memory := Function.update (Function.update (fun _ => 0) 0 109) 1 0,
               accumulator := 0, program_counter := 1, stdin := [],
               stdout := [OutEvent.banner, OutEvent.enterProgram] },
    hload, rfl, rfl, rfl, by decide, by decide, rfl, rfl, rfl, rfl, rfl, by decide, rfl, rfl, ?_⟩
  rw [main, hload]
  rfl

/-! ## Executions: any number of cycles -/

/-- One more cycle at the end: `run (n + 1)` is `run n` followed, when the
loop is still going, by one cycle. -/
theorem run_succ (n : Nat) : ∀ s : Machine,
    run (n + 1) s =
      match run n s with
      | Outcome.running u => cycle u
      | Outcome.exited e u => Outcome.exited e u := by
  induction n with
  | zero =>
    intro s
    simp only [run]
    cases cycle s <;> rfl
  | succ n ih =>
    intro s
    rw [run]
    cases hc : cycle s with
    | running v =>
      simp only []
      rw [ih v]
      conv_rhs => rw [run, hc]
    | exited e v =>
      simp only []
      conv_rhs => rw [run, hc]

/-- A loop still going after `n + 1` cycles was still going after `n`, and
its last cycle returned. -/
theorem run_succ_running (n : Nat) (s t : Machine) (h : run (n + 1) s = Outcome.running t) :
    ∃ u, run n s = Outcome.running u ∧ cycle u = Outcome.running t := by
  rw [run_succ] at h
  cases hr : run n s with
  | running u =>
    rw [hr] at h
    exact ⟨u, rfl, h⟩
  | exited e u =>
    rw [hr] at h
    cases h

/-- A process that has ended within `n` cycles ended in one of them: the
loop was still going after some `m < n` cycles and the next cycle ended it. -/
theorem run_exited (n : Nat) : ∀ (s t : Machine) (e : Exit),
    run n s = Outcome.exited e t →
    ∃ m u, m < n ∧ run m s = Outcome.running u ∧ cycle u = Outcome.exited e t := by
  induction n with
  | zero =>
    intro s t e h
    simp only [run] at h
    cases h
  | succ n ih =>
    intro s t e h
    rw [run_succ] at h
    cases hr : run n s with
    | running u =>
      rw [hr] at h
      exact ⟨n, u, Nat.lt_succ_self n, hr, h⟩
    | exited e2 u =>
      rw [hr] at h
      injection h with h1 h2
      subst h1 h2
      obtain ⟨m, w, hm, hw, hc⟩ := ih s u e2 hr
      exact ⟨m, w, Nat.lt_succ_of_lt hm, hw, hc⟩

/-- A property of machines that every returning cycle keeps holds of every
machine the loop reaches. -/
theorem run_invariant (P : Machine → Prop)
    (hstep : ∀ u v, P u → cycle u = Outcome.running v → P v) (n : Nat) :
    ∀ s t, P s → run n s = Outcome.running t → P t := by
  induction n with
  | zero =>
    intro s t hs h
    simp only [run] at h
    injection h with h
    subst h
    exact hs
  | succ n ih =>
    intro s t hs h
    obtain ⟨u, hu, hc⟩ := run_succ_running n s t h
    exact hstep u t (ih s u hs hu) hc

/-- A cycle that returns started with the program counter on a cell `p`, and
leaves it in 1..100 after a taken jump and on `p + 1` otherwise. -/
theorem cycle_pc (u t : Machine) (h : cycle u = Outcome.running t) :
    ∃ p : Fin MEMORY_SIZE, u.program_counter = (p.val : Int) ∧
      ((taken_jump u (u.memory p) ∧ 1 ≤ t.program_counter ∧ t.program_counter ≤ 100) ∨
       (¬ taken_jump u (u.memory p) ∧ t.program_counter = (p.val : Int) + 1)) := by
  by_cases hr : out_of_range u.program_counter
  · unfold cycle at h
    rw [dif_pos hr] at h
    cases h
  · have hp : u.program_counter = ((cell u.program_counter hr).val : Int) := by
      unfold out_of_range at hr
      simp only [cell]
      omega
    refine ⟨cell u.program_counter hr, hp, ?_⟩
    rw [cycle_fetch u _ hp] at h
    cases he : execute_instruction u (u.memory (cell u.program_counter hr)) with
    | running v =>
      rw [he] at h
      injection h with h
      subst h
      rcases execute_running_pc u v _ he with ⟨hj, h0, h99⟩ | ⟨hj, hsame⟩
      · left
        have hw : wrap32 (v.program_counter + 1) = v.program_counter + 1 :=
          wrap32_of_inInt32 _ (by unfold inInt32; omega)
        refine ⟨hj, ?_, ?_⟩
        · simp only [hw]; omega
        · simp only [hw]; omega
      · right
        refine ⟨hj, ?_⟩
        have hw := wrap32_succ_fin (cell u.program_counter hr)
        rw [← hp] at hw
        simp only [hsame, hw]
        omega
    | exited e v =>
      rw [he] at h
      cases h

/-- From a program counter in `0..MEMORY_SIZE`, a returning cycle leaves it
in `0..MEMORY_SIZE`. -/
theorem cycle_pc_bounds (u t : Machine) (h : cycle u = Outcome.running t) :
    0 ≤ t.program_counter ∧ t.program_counter ≤ 256 := by
  obtain ⟨p, _, hcases⟩ := cycle_pc u t h
  have hp := p.isLt
  simp only [MEMORY_SIZE] at hp
  rcases hcases with ⟨_, h1, h2⟩ | ⟨_, h1⟩ <;> omega

/-- The `PROGRAM COUNTER OUT OF BOUNDS` failure is not one of the ways
`execute_instruction` ends. -/
theorem execute_not_pc_failure (s t : Machine) (i pc : Int) :
    execute_instruction s i ≠ Outcome.exited (Exit.failure (Fatal.pcOutOfBounds pc)) t := by
  by_cases h : out_of_range (operand_of i)
  · rw [execute_out_of_range s i h]
    intro hc
    cases hc
  · obtain ⟨a, _, _, hcases⟩ := execute_shape s i h
    rcases hcases with ⟨_, e⟩ | ⟨_, e⟩ | ⟨_, e⟩ | ⟨_, e⟩ | ⟨_, e⟩ | ⟨_, _, e⟩ |
      ⟨_, v, rest, _, e⟩ | ⟨_, _, e⟩ | ⟨_, e⟩ | ⟨_, e⟩ | ⟨_, e⟩ <;> rw [e] <;>
      intro hc <;> cases hc

/-- A cycle ends with `PROGRAM COUNTER OUT OF BOUNDS` only at its own guard:
the program counter it started with is outside the memory and is the value
reported. -/
theorem cycle_pc_failure (u t : Machine) (pc : Int)
    (h : cycle u = Outcome.exited (Exit.failure (Fatal.pcOutOfBounds pc)) t) :
    out_of_range u.program_counter ∧ pc = u.program_counter ∧ t = u := by
  by_cases hr : out_of_range u.program_counter
  · unfold cycle at h
    rw [dif_pos hr] at h
    injection h with h1 h2
    injection h1 with h1
    injection h1 with h1
    exact ⟨hr, h1.symm, h2.symm⟩
  · have hp : u.program_counter = ((cell u.program_counter hr).val : Int) := by
      unfold out_of_range at hr
      simp only [cell]
      omega
    rw [cycle_fetch u _ hp] at h
    cases he : execute_instruction u (u.memory (cell u.program_counter hr)) with
    | running v =>
      rw [he] at h
      cases h
    | exited e v =>
      rw [he] at h
      injection h with h1 h2
      subst h1 h2
      exact absurd he (execute_not_pc_failure u v _ pc)

/-- A cycle, however it ends, leaves the cells from 100 on as they were. -/
theorem cycle_high_cells (s : Machine) (j : Fin MEMORY_SIZE) (hj : 100 ≤ j.val) :
    (cycle s).machine.memory j = s.memory j := by
  by_cases hr : out_of_range s.program_counter
  · unfold cycle
    rw [dif_pos hr]
    rfl
  · have hp : s.program_counter = ((cell s.program_counter hr).val : Int) := by
      unfold out_of_range at hr
      simp only [cell]
      omega
    have hx := execute_high_cells s (s.memory (cell s.program_counter hr)) j hj
    rw [cycle_fetch s _ hp]
    cases he : execute_instruction s (s.memory (cell s.program_counter hr)) with
    | running v =>
      rw [he] at hx
      exact hx
    | exited e v =>
      rw [he] at hx
      exact hx

/-- Any number of cycles, however the execution ends, leaves the cells from
100 on as they were. -/
theorem run_high_cells (n : Nat) (j : Fin MEMORY_SIZE) (hj : 100 ≤ j.val) :
    ∀ s : Machine, (run n s).machine.memory j = s.memory j := by
  induction n with
  | zero =>
    intro s
    rfl
  | succ n ih =>
    intro s
    have hc := cycle_high_cells s j hj
    rw [run]
    cases he : cycle s with
    | running v =>
      rw [he] at hc
      simp only []
      rw [ih v]
      exact hc
    | exited e v =>
      rw [he] at hc
      exact hc

/-! ## A memory full of `LOAD 0` -/

/-- With 400 (`LOAD 0`) in every cell and the program counter on a cell, a
cycle loads 400 and moves to the next cell. -/
theorem cycle_load_everywhere (s : Machine) (p : Fin MEMORY_SIZE)
    (hmem : ∀ j, s.memory j = 400) (hp : s.program_counter = (p.val : Int)) :
    cycle s = Outcome.running
      { s with accumulator := 400, program_counter := (p.val : Int) + 1 } := by
  have hw := wrap32_succ_fin p
  have hd : opcode_of 400 = 4 ∧ operand_of 400 = ((0 : Fin MEMORY_SIZE).val : Int) :=
    ⟨by decide, by decide⟩
  rw [cycle_fetch s p hp, hmem p, execute_dispatch s 400 0 hd.2]
  simp [hd.1, hmem, hp, hw]

/-- With 400 in every cell, the execution walks up the memory and ends with
`PROGRAM COUNTER OUT OF BOUNDS` at 256, one cycle after the last cell. -/
theorem run_load_everywhere (m : Nat) : ∀ (p : Nat) (s : Machine), p + m = MEMORY_SIZE →
    (∀ j, s.memory j = 400) → s.program_counter = (p : Int) →
    ∃ t, run (m + 1) s = Outcome.exited (Exit.failure (Fatal.pcOutOfBounds 256)) t := by
  induction m with
  | zero =>
    intro p s hpm hmem hp
    have hr : out_of_range s.program_counter := by
      unfold out_of_range
      simp only [MEMORY_SIZE] at *
      omega
    have h256 : s.program_counter = 256 := by
      simp only [MEMORY_SIZE] at hpm
      omega
    have hc : cycle s = Outcome.exited (Exit.failure (Fatal.pcOutOfBounds 256)) s := by
      unfold cycle
      rw [dif_pos hr, h256]
    refine ⟨s, ?_⟩
    rw [run, hc]
  | succ m ih =>
    intro p s hpm hmem hp
    have hlt : p < MEMORY_SIZE := by omega
    have hc := cycle_load_everywhere s ⟨p, hlt⟩ hmem hp
    rw [run, hc]
    exact ih (p + 1) _ (by omega) hmem (by simp)

/-- In an execution started with the program counter at 0, every machine the
loop reaches has its program counter in `0..MEMORY_SIZE`. -/
theorem run_pc_bounds (s : Machine) (hpc : s.program_counter = 0) (n : Nat) (t : Machine)
    (h : run n s = Outcome.running t) :
    0 ≤ t.program_counter ∧ t.program_counter ≤ 256 :=
  run_invariant (fun w => 0 ≤ w.program_counter ∧ w.program_counter ≤ 256)
    (fun a b _ hc => cycle_pc_bounds a b hc) n s t
    (by
      show 0 ≤ s.program_counter ∧ s.program_counter ≤ 256
      rw [hpc]
      decide)
    h

/-- How an execution started with the program counter at 0 comes to the
`PROGRAM COUNTER OUT OF BOUNDS` failure: the value reported is 256, and the
cycle before the failing guard ran the instruction of cell 255, which was
not a taken jump. -/
theorem run_pc_failure (s : Machine) (hpc : s.program_counter = 0) (n : Nat) (pc : Int)
    (t : Machine)
    (hfail : run n s = Outcome.exited (Exit.failure (Fatal.pcOutOfBounds pc)) t) :
    pc = 256 ∧ t.program_counter = 256 ∧
    ∃ m u, m + 2 ≤ n ∧ run m s = Outcome.running u ∧ u.program_counter = 255 ∧
      ¬ taken_jump u (u.memory 255) ∧ cycle u = Outcome.running t := by
  obtain ⟨m, u, hm, hu, hc⟩ := run_exited n s t _ hfail
  obtain ⟨hr, hpceq, htu⟩ := cycle_pc_failure u t pc hc
  subst htu
  have hb := run_pc_bounds s hpc m t hu
  have h256 : t.program_counter = 256 := by
    unfold out_of_range at hr
    simp only [MEMORY_SIZE] at hr
    omega
  refine ⟨by rw [hpceq, h256], h256, ?_⟩
  cases m with
  | zero =>
    simp only [run] at hu
    injection hu with hu
    subst hu
    rw [hpc] at h256
    exact absurd h256 (by decide)
  | succ k =>
    obtain ⟨w, hw, hcw⟩ := run_succ_running k s t hu
    obtain ⟨p, hp, hcases⟩ := cycle_pc w t hcw
    rcases hcases with ⟨_, _, h100⟩ | ⟨hj, hnext⟩
    · omega
    · have hp255 : p = 255 := by
        apply Fin.ext
        have h1 : (p.val : Int) = 255 := by omega
        have h2 : p.val = 255 := by omega
        rw [h2]
        rfl
      subst hp255
      exact ⟨k, w, by omega, hw, hp, hj, hcw⟩

/-- C17 (as stated, refuted): the loader turns 256 tokens 400 (`LOAD 0`) into
a memory with accumulator 0 and program counter 0 from which no machine the
execution reaches holds a taken jump in any cell, and the execution ends
with `PROGRAM COUNTER OUT OF BOUNDS` at 256 in its 257th cycle. -/
theorem pc_failure_without_jump :
    ∃ s1 t, load_program (Machine.initial ((List.replicate 256 (400 : Int)).map Token.int)) =
        Outcome.running s1 ∧
      s1.accumulator = 0 ∧ s1.program_counter = 0 ∧
      (∀ k u, run k s1 = Outcome.running u → ∀ j, ¬ taken_jump u (u.memory j)) ∧
      run 257 s1 = Outcome.exited (Exit.failure (Fatal.pcOutOfBounds 256)) t := by
  obtain ⟨s1, hrun, _, hacc, hpc, _, _, hcells⟩ :=
    load_loop_prefix (List.replicate 256 (400 : Int)) 0
      { Machine.initial ((List.replicate 256 (400 : Int)).map Token.int) with
        stdout := (Machine.initial ((List.replicate 256 (400 : Int)).map Token.int)).stdout ++
          [OutEvent.banner, OutEvent.enterProgram] }
      []
      (fun v hv => by rw [List.eq_of_mem_replicate hv]; decide)
      (by rw [List.length_replicate])
      (List.append_nil _).symm
  have hmem : ∀ j : Fin MEMORY_SIZE, s1.memory j = 400 := by
    intro j
    have hj : j.val < 256 := j.isLt
    have h := hcells j (Nat.zero_le _) (by rw [List.length_replicate]; omega)
    simp only [Nat.sub_zero, List.getElem?_replicate, hj, if_true, Option.some.injEq] at h
    exact h.symm
  have hload : load_program (Machine.initial ((List.replicate 256 (400 : Int)).map Token.int)) =
      Outcome.running s1 := by
    unfold load_program
    rw [hrun]
    exact load_loop_full _ s1 (by rw [List.length_replicate]; decide)
  obtain ⟨t, ht⟩ := run_load_everywhere 256 0 s1 rfl hmem hpc
  refine ⟨s1, t, hload, hacc, hpc, ?_, ht⟩
  intro k u hu j
  have hinv : ∀ i, u.memory i = 400 := by
    refine run_invariant (fun w => ∀ i, w.memory i = 400) ?_ k s1 u hmem hu
    intro a b ha hc
    obtain ⟨p, hp, _⟩ := cycle_pc a b hc
    rw [cycle_load_everywhere a p ha hp] at hc
    injection hc with hc
    subst hc
    exact ha
  rw [hinv j]
  have h4 : opcode_of 400 = 4 := by decide
  unfold taken_jump
  omega

/-- C17 (amended): in every execution started with the program counter at
0 that ends with `PROGRAM COUNTER OUT OF BOUNDS`, the failing program counter
is 256 and the cycle just before the failing guard executed the instruction
of cell 255 without taking a jump: the execution ran off the end of the
memory.  A cycle that takes a jump leaves the program counter inside the
memory. -/
theorem pc_failure_only_off_the_end (s : Machine) (hpc : s.program_counter = 0) (n : Nat)
    (pc : Int) (t : Machine)
    (hfail : run n s = Outcome.exited (Exit.failure (Fatal.pcOutOfBounds pc)) t) :
    (pc = 256 ∧ t.program_counter = 256 ∧
      ∃ m u, m + 2 ≤ n ∧ run m s = Outcome.running u ∧ u.program_counter = 255 ∧
        ¬ taken_jump u (u.memory 255) ∧ cycle u = Outcome.running t) ∧
    ∀ (u v : Machine) (p : Fin MEMORY_SIZE), u.program_counter = (p.val : Int) →
      taken_jump u (u.memory p) → cycle u = Outcome.running v →
      ¬ out_of_range v.program_counter := by
  refine ⟨run_pc_failure s hpc n pc t hfail, ?_⟩
  intro u v p hp hj hc
  obtain ⟨q, hq, hcases⟩ := cycle_pc u v hc
  have hpq : p = q := Fin.ext (by omega)
  subst hpq
  unfold out_of_range
  simp only [MEMORY_SIZE]
  rcases hcases with ⟨_, h1, h100⟩ | ⟨hnj, _⟩
  · omega
  · exact absurd hj hnj

/-- Witness for C17 (amended): the machine with 400 in every cell, 257
cycles. -/
theorem pc_failure_only_off_the_end_witness :
    ∃ t, run 257 (Machine.filled 400 0 []) =
        Outcome.exited (Exit.failure (Fatal.pcOutOfBounds 256)) t ∧
      t.program_counter = 256 ∧
      ∃ m u, m + 2 ≤ 257 ∧ run m (Machine.filled 400 0 []) = Outcome.running u ∧
        u.program_counter = 255 ∧ ¬ taken_jump u (u.memory 255) ∧
        cycle u = Outcome.running t :=
  (run_load_everywhere 256 0 (Machine.filled 400 0 []) rfl (fun _ => rfl) rfl).elim
    fun t ht =>
      ⟨t, ht, (pc_failure_only_off_the_end (Machine.filled 400 0 []) rfl 257 256 t ht).1.2⟩

/-- C18 (as stated, refuted): the instruction -5 decodes to the operand -5,
which is not in 0..99. -/
theorem decode_negative_operand :
    operand_of (-5) = -5 ∧ ¬ (0 ≤ operand_of (-5) ∧ operand_of (-5) ≤ 99) := by
  decide

/-- C18 (amended): decoding with truncating division yields an operand in
-99..99 that has the sign of the instruction: in 0..99 for an instruction
that is not negative, in -99..0 for a negative one; opcode and operand
recompose to the instruction. -/
theorem decode_operand_range (instruction : Int) :
    (-99 ≤ operand_of instruction ∧ operand_of instruction ≤ 99) ∧
    (0 ≤ instruction → 0 ≤ operand_of instruction ∧ operand_of instruction ≤ 99) ∧
    (instruction < 0 → -99 ≤ operand_of instruction ∧ operand_of instruction ≤ 0) ∧
    instruction = 100 * opcode_of instruction + operand_of instruction := by
  rcases decode_cases instruction with ⟨h1, h2, h3⟩ | ⟨h1, h2, h3⟩
  · rw [h2, h3]
    omega
  · rw [h2, h3]
    omega

/-- What `execute_instruction` does for each opcode, once the operand guard
has let the instruction through with the operand naming cell `a`. -/
theorem execute_by_opcode (m : Machine) (i : Int) (a : Fin MEMORY_SIZE)
    (ha : operand_of i = (a.val : Int)) :
    (opcode_of i = 1 → execute_instruction m i =
      Outcome.running { m with accumulator := wrap32 (m.accumulator + m.memory a) }) ∧
    (opcode_of i = 2 → execute_instruction m i =
      Outcome.running { m with accumulator := wrap32 (m.accumulator - m.memory a) }) ∧
    (opcode_of i = 3 → execute_instruction m i =
      Outcome.running { m with memory := Function.update m.memory a m.accumulator }) ∧
    (opcode_of i = 4 → execute_instruction m i =
      Outcome.running { m with accumulator := m.memory a }) ∧
    (opcode_of i = 5 → execute_instruction m i =
      Outcome.running { m with program_counter := (a.val : Int) }) ∧
    (opcode_of i = 6 → execute_instruction m i =
      if m.accumulator = 0 then Outcome.running { m with program_counter := (a.val : Int) }
      else Outcome.running m) ∧
    (opcode_of i = 7 → execute_instruction m i =
      if m.accumulator > 0 then Outcome.running { m with program_counter := (a.val : Int) }
      else Outcome.running m) ∧
    (opcode_of i = 8 → execute_instruction m i =
      match m.stdin with
      | Token.int v :: rest =>
        Outcome.running
          { m with stdout := m.stdout ++ [OutEvent.enterNumber], stdin := rest,
                   memory := Function.update m.memory a v }
      | _ =>
        Outcome.exited (Exit.failure Fatal.invalidInput)
          { m with stdout := m.stdout ++ [OutEvent.enterNumber] }) ∧
    (opcode_of i = 9 → execute_instruction m i =
      Outcome.running { m with stdout := m.stdout ++ [OutEvent.output (m.memory a)] }) ∧
    (opcode_of i = 0 → execute_instruction m i = Outcome.exited Exit.success m) ∧
    (opcode_of i < 0 ∨ 9 < opcode_of i → execute_instruction m i =
      Outcome.exited (Exit.failure (Fatal.invalidInstruction i)) m) := by
  have hd := execute_dispatch m i a ha
  refine ⟨?_, ?_, ?_, ?_, ?_, ?_, ?_, ?_, ?_, ?_, ?_⟩
  all_goals
    intro k
    rw [hd]
    repeat rw [if_neg (by omega)]
  all_goals first
    | done
    | rw [if_pos k]

/-- Writing the same value in the same cell keeps two memories equal on the
cells 0..99. -/
theorem update_same_below (f g : Fin MEMORY_SIZE → Int) (a : Fin MEMORY_SIZE) (v : Int)
    (h : ∀ j : Fin MEMORY_SIZE, j.val < 100 → f j = g j) :
    ∀ j : Fin MEMORY_SIZE, j.val < 100 → Function.update f a v j = Function.update g a v j := by
  intro j hj
  by_cases hja : j = a
  · subst hja
    simp
  · simp [Function.update, hja, h j hj]

/-- The contents of the cells from 100 on have no part in what an
instruction does: on two machines that differ only there, the same
instruction ends the same way, with the same accumulator, program counter,
streams and cells 0..99. -/
theorem execute_ignores_high_cells (s s2 : Machine) (i : Int) (hs : same_below_100 s s2) :
    (execute_instruction s i).same_below_100 (execute_instruction s2 i) := by
  obtain ⟨hacc, hpc, hin, hout, hmem⟩ := hs
  by_cases h : out_of_range (operand_of i)
  · rw [execute_out_of_range s i h, execute_out_of_range s2 i h]
    exact ⟨rfl, hacc, hpc, hin, hout, hmem⟩
  · have h0 : 0 ≤ operand_of i := by
      unfold out_of_range at h; omega
    obtain ⟨a, ha, ha100⟩ := operand_cell i h0
    have hma : s.memory a = s2.memory a := hmem a ha100
    have e1 := execute_by_opcode s i a ha
    have e2 := execute_by_opcode s2 i a ha
    have hsplit : opcode_of i = 1 ∨ opcode_of i = 2 ∨ opcode_of i = 3 ∨ opcode_of i = 4 ∨
        opcode_of i = 5 ∨ opcode_of i = 6 ∨ opcode_of i = 7 ∨ opcode_of i = 8 ∨
        opcode_of i = 9 ∨ opcode_of i = 0 ∨ (opcode_of i < 0 ∨ 9 < opcode_of i) := by omega
    rcases hsplit with k | k | k | k | k | k | k | k | k | k | k
    · rw [e1.1 k, e2.1 k]
      exact ⟨by simp only [hacc, hma], hpc, hin, hout, hmem⟩
    · rw [e1.2.1 k, e2.2.1 k]
      exact ⟨by simp only [hacc, hma], hpc, hin, hout, hmem⟩
    · rw [e1.2.2.1 k, e2.2.2.1 k]
      refine ⟨hacc, hpc, hin, hout, ?_⟩
      show ∀ j : Fin MEMORY_SIZE, j.val < 100 →
        Function.update s.memory a s.accumulator j = Function.update s2.memory a s2.accumulator j
      rw [← hacc]
      exact update_same_below _ _ a _ hmem
    · rw [e1.2.2.2.1 k, e2.2.2.2.1 k]
      exact ⟨hma, hpc, hin, hout, hmem⟩
    · rw [e1.2.2.2.2.1 k, e2.2.2.2.2.1 k]
      exact ⟨hacc, rfl, hin, hout, hmem⟩
    · rw [e1.2.2.2.2.2.1 k, e2.2.2.2.2.2.1 k]
      by_cases hz : s.accumulator = 0
      · have hz2 : s2.accumulator = 0 := by rw [← hacc]; exact hz
        rw [if_pos hz, if_pos hz2]
        exact ⟨hacc, rfl, hin, hout, hmem⟩
      · have hz2 : ¬ s2.accumulator = 0 := by rw [← hacc]; exact hz
        rw [if_neg hz, if_neg hz2]
        exact ⟨hacc, hpc, hin, hout, hmem⟩
    · rw [e1.2.2.2.2.2.2.1 k, e2.2.2.2.2.2.2.1 k]
      by_cases hz : s.accumulator > 0
      · have hz2 : s2.accumulator > 0 := by rw [← hacc]; exact hz
        rw [if_pos hz, if_pos hz2]
        exact ⟨hacc, rfl, hin, hout, hmem⟩
      · have hz2 : ¬ s2.accumulator > 0 := by rw [← hacc]; exact hz
        rw [if_neg hz, if_neg hz2]
        exact ⟨hacc, hpc, hin, hout, hmem⟩
    · rw [e1.2.2.2.2.2.2.2.1 k, e2.2.2.2.2.2.2.2.1 k]
      have hprompt : s.stdout ++ [OutEvent.enterNumber] = s2.stdout ++ [OutEvent.enterNumber] := by
        rw [hout]
      cases hst : s.stdin with
      | nil =>
        have hst2 : s2.stdin = [] := by rw [← hin, hst]
        simp only [hst2]
        exact ⟨rfl, hacc, hpc, rfl, hprompt, hmem⟩
      | cons tok rest =>
        have hst2 : s2.stdin = tok :: rest := by rw [← hin, hst]
        cases tok with
        | int v =>
          simp only [hst2]
          exact ⟨hacc, hpc, rfl, hprompt, update_same_below _ _ a v hmem⟩
        | other =>
          simp only [hst2]
          exact ⟨rfl, hacc, hpc, rfl, hprompt, hmem⟩
    · rw [e1.2.2.2.2.2.2.2.2.1 k, e2.2.2.2.2.2.2.2.2.1 k]
      exact ⟨hacc, hpc, hin, by simp only [hout, hma], hmem⟩
    · rw [e1.2.2.2.2.2.2.2.2.2.1 k, e2.2.2.2.2.2.2.2.2.2.1 k]
      exact ⟨rfl, hacc, hpc, hin, hout, hmem⟩
    · rw [e1.2.2.2.2.2.2.2.2.2.2 k, e2.2.2.2.2.2.2.2.2.2.2 k]
      exact ⟨rfl, hacc, hpc, hin, hout, hmem⟩

/-- C19: no operand addresses a cell from 100 on.  For `j` in 100..255,
`Memory[j]` is the same after one instruction, after one cycle and after any
number of cycles, however they end, as before, so that in an execution from
a loaded memory these cells keep their load-time value; the cell an
instruction reads or writes through its operand is below 100.  No
instruction reads one of these cells as data: ADD, SUB, LOAD and OUTPUT take
their value from the cell `Memory[a]` their operand names, with `a` below
100, and on two machines that differ only in the cells from 100 on every
instruction ends the same way, with the same accumulator, program counter,
input left, output printed and cells 0..99. -/
theorem high_cells_never_addressed (s : Machine) (i : Int) (n : Nat)
    (j : Fin MEMORY_SIZE) (hj : 100 ≤ j.val) :
    (execute_instruction s i).machine.memory j = s.memory j ∧
    (cycle s).machine.memory j = s.memory j ∧
    (run n s).machine.memory j = s.memory j ∧
    (∀ (input : List Token) (s1 : Machine),
      load_program (Machine.initial input) = Outcome.running s1 →
      (main n input).machine.memory j = s1.memory j) ∧
    (∀ h : ¬ out_of_range (operand_of i),
      (cell (operand_of i) h).val < 100 ∧ cell (operand_of i) h ≠ j) ∧
    (∀ h : ¬ out_of_range (operand_of i),
      ∃ a : Fin MEMORY_SIZE, a.val < 100 ∧ a ≠ j ∧ a = cell (operand_of i) h ∧
        (opcode_of i = 1 → execute_instruction s i =
          Outcome.running { s with accumulator := wrap32 (s.accumulator + s.memory a) }) ∧
        (opcode_of i = 2 → execute_instruction s i =
          Outcome.running { s with accumulator := wrap32 (s.accumulator - s.memory a) }) ∧
        (opcode_of i = 4 → execute_instruction s i =
          Outcome.running { s with accumulator := s.memory a }) ∧
        (opcode_of i = 9 → execute_instruction s i =
          Outcome.running { s with stdout := s.stdout ++ [OutEvent.output (s.memory a)] })) ∧
    ∀ s2 : Machine, same_below_100 s s2 →
      (execute_instruction s i).same_below_100 (execute_instruction s2 i) := by
  have hcell : ∀ h : ¬ out_of_range (operand_of i),
      (cell (operand_of i) h).val < 100 ∧ cell (operand_of i) h ≠ j := by
    intro h
    have hb := operand_bounds i
    have hlt : (cell (operand_of i) h).val < 100 := by
      unfold out_of_range at h
      simp only [cell]
      omega
    refine ⟨hlt, ?_⟩
    intro hc
    rw [hc] at hlt
    omega
  refine ⟨execute_high_cells s i j hj, cycle_high_cells s j hj, run_high_cells n j hj s, ?_,
    hcell, ?_, fun s2 hs => execute_ignores_high_cells s s2 i hs⟩
  · intro input s1 hload
    rw [main, hload]
    exact run_high_cells n j hj s1
  · intro h
    have ha : operand_of i = ((cell (operand_of i) h).val : Int) := by
      unfold out_of_range at h
      simp only [cell]
      omega
    have e := execute_by_opcode s i (cell (operand_of i) h) ha
    exact ⟨cell (operand_of i) h, (hcell h).1, (hcell h).2, rfl, e.1, e.2.1, e.2.2.2.1,
      e.2.2.2.2.2.2.2.2.1⟩

/-- Witness for C19: cell 100 under `STORE 99` (399), the highest address an
operand reaches, on the machine holding 11 in every cell; and `ADD 99` (199)
on that machine and on the one that holds 5 instead of 11 in cell 200. -/
theorem high_cells_never_addressed_witness :
    ((execute_instruction (Machine.filled 11 7 []) 399).machine.memory 100 = 11 ∧
      (cycle (Machine.filled 11 7 [])).machine.memory 100 = 11 ∧
      (run 3 (Machine.filled 11 7 [])).machine.memory 100 = 11) ∧
    (execute_instruction (Machine.filled 11 7 []) 199).same_below_100
      (execute_instruction
        { Machine.filled 11 7 [] with memory := Function.update (fun _ => 11) 200 5 } 199) :=
  have h := high_cells_never_addressed (Machine.filled 11 7 []) 399 3 100 (by decide)
  have g := high_cells_never_addressed (Machine.filled 11 7 []) 199 3 100 (by decide)
  ⟨⟨h.1, h.2.1, h.2.2.1⟩,
    g.2.2.2.2.2.2 { Machine.filled 11 7 [] with memory := Function.update (fun _ => 11) 200 5 }
      ⟨rfl, rfl, rfl, rfl, fun k hk => by
        have hne : k ≠ 200 := by
          intro hc
          rw [hc] at hk
          exact absurd hk (by decide)
        simp [Machine.filled, Function.update, hne]⟩⟩

/-- C20: in an execution of `run` started with the program counter at 0,
whatever the memory and the input, the program counter at the start of every
cycle is in `0..MEMORY_SIZE`; the `PROGRAM COUNTER OUT OF BOUNDS` failure, when
it occurs, reports exactly 256; and a cycle that gets past its guard fetches
the cell the program counter names, inside the array. -/
theorem program_counter_within_bounds (s : Machine) (hpc : s.program_counter = 0) (n : Nat) :
    (∀ t, run n s = Outcome.running t →
      0 ≤ t.program_counter ∧ t.program_counter ≤ (MEMORY_SIZE : Int)) ∧
    (∀ pc t, run n s = Outcome.exited (Exit.failure (Fatal.pcOutOfBounds pc)) t →
      pc = (MEMORY_SIZE : Int)) ∧
    (∀ t, run n s = Outcome.running t → ∀ h : ¬ out_of_range t.program_counter,
      ((cell t.program_counter h).val : Int) = t.program_counter ∧
      (cell t.program_counter h).val < MEMORY_SIZE) := by
  refine ⟨fun t h => run_pc_bounds s hpc n t h, fun pc t h => (run_pc_failure s hpc n pc t h).1,
    fun t _ h => ⟨?_, (cell t.program_counter h).isLt⟩⟩
  unfold out_of_range at h
  simp only [cell]
  omega

/-- Witness for C20: 257 cycles on the machine with 400 in every cell, which
ends with the program counter at 256. -/
theorem program_counter_within_bounds_witness :
    (∀ t, run 257 (Machine.filled 400 0 []) = Outcome.running t →
      0 ≤ t.program_counter ∧ t.program_counter ≤ (MEMORY_SIZE : Int)) ∧
    (∀ pc t, run 257 (Machine.filled 400 0 []) =
        Outcome.exited (Exit.failure (Fatal.pcOutOfBounds pc)) t →
      pc = (MEMORY_SIZE : Int)) :=
  have h := program_counter_within_bounds (Machine.filled 400 0 []) rfl 257
  ⟨h.1, h.2.1⟩

end Abacus
